import Mathlib

/-!
Verification development for the molecular-dynamics program `chapter3.cpp`
(neighbor-search, minimum-image convention, Lennard-Jones force kernel,
Tersoff bond-order kernel, velocity-Verlet driver glue).

The C++ `double` values are modelled as exact rationals `ℚ`; transcendental
library calls (`sqrt`, `exp`, `cos`, `sin`, `pow`) that the source applies to
them are modelled as explicit function parameters, so every structural fact
proved below holds for any interpretation of those calls.  Arrays are modelled
as total functions from indices; the neighbor-list builders additionally log
every store index into `NL` so that out-of-stride stores can be observed.
-/

/-- The 3×3 determinant of the box matrix, as computed by `getDet` in the
source (`box` is an 18-entry block; entries 0..8 are the matrix rows). -/
def getDet (b : ℕ → ℚ) : ℚ :=
  b 0 * (b 4 * b 8 - b 5 * b 7) +
  b 1 * (b 5 * b 6 - b 3 * b 8) +
  b 2 * (b 3 * b 7 - b 4 * b 6)

/-- The inverse-box entries written by `getInverseBox` in the source:
entries 9..17 become the adjugate entries divided by the determinant,
entries 0..8 are left unchanged. -/
def getInverseBox (b : ℕ → ℚ) : ℕ → ℚ :=
  let det := getDet b
  fun k =>
    if k = 9 then (b 4 * b 8 - b 5 * b 7) / det
    else if k = 10 then (b 2 * b 7 - b 1 * b 8) / det
    else if k = 11 then (b 1 * b 5 - b 2 * b 4) / det
    else if k = 12 then (b 5 * b 6 - b 3 * b 8) / det
    else if k = 13 then (b 0 * b 8 - b 2 * b 6) / det
    else if k = 14 then (b 2 * b 3 - b 0 * b 5) / det
    else if k = 15 then (b 3 * b 7 - b 4 * b 6) / det
    else if k = 16 then (b 1 * b 6 - b 0 * b 7) / det
    else if k = 17 then (b 0 * b 4 - b 1 * b 3) / det
    else b k

/-- The program invariant maintained for every box it builds: slots 9..17
hold the inverse of the matrix in slots 0..8 (established by the single call
of `getInverseBox` during initialization). -/
def boxInvOk (b : ℕ → ℚ) : Prop :=
  ∀ k, k < 18 → b k = getInverseBox b k

instance (b : ℕ → ℚ) : Decidable (boxInvOk b) := by
  unfold boxInvOk; infer_instance

/-- `applyMicOne` from the source: a single ±1 shift of a fractional
displacement component. -/
def applyMicOne (x12 : ℚ) : ℚ :=
  if x12 < -(1/2) then x12 + 1
  else if x12 > 1/2 then x12 - 1
  else x12

/-- Fractional coordinates of a Cartesian vector via the stored inverse box
entries (the `sx12`,`sy12`,`sz12` computed inside `applyMic`/`applyPbc`). -/
def fracCoord (b : ℕ → ℚ) (X Y Z : ℚ) : ℚ × ℚ × ℚ :=
  (b 9 * X + b 10 * Y + b 11 * Z,
   b 12 * X + b 13 * Y + b 14 * Z,
   b 15 * X + b 16 * Y + b 17 * Z)

/-- `applyMic` from the source: to fractional coordinates, one ±1 wrap per
component, back to Cartesian. -/
def applyMic (b : ℕ → ℚ) (x12 y12 z12 : ℚ) : ℚ × ℚ × ℚ :=
  let sx12 := b 9 * x12 + b 10 * y12 + b 11 * z12
  let sy12 := b 12 * x12 + b 13 * y12 + b 14 * z12
  let sz12 := b 15 * x12 + b 16 * y12 + b 17 * z12
  let sx := applyMicOne sx12
  let sy := applyMicOne sy12
  let sz := applyMicOne sz12
  (b 0 * sx + b 1 * sy + b 2 * sz,
   b 3 * sx + b 4 * sy + b 5 * sz,
   b 6 * sx + b 7 * sy + b 8 * sz)

/-- `applyPbcOne` from the source: single wrap of a fractional coordinate. -/
def applyPbcOne (sx : ℚ) : ℚ :=
  if sx < 0 then sx + 1
  else if sx > 1 then sx - 1
  else sx

/-- The particle-system state (`struct Atom` of the source).  Arrays are
total maps from atom index; `box` is the 18-entry matrix+inverse block. -/
structure Atom where
  number : ℕ
  numUpdates : ℕ := 0
  MN : ℕ := 1000
  cutoffNeighbor : ℚ := 10
  box : ℕ → ℚ
  NN : ℕ → ℕ
  NL : ℕ → ℕ
  mass : ℕ → ℚ
  x0 : ℕ → ℚ
  y0 : ℕ → ℚ
  z0 : ℕ → ℚ
  x : ℕ → ℚ
  y : ℕ → ℚ
  z : ℕ → ℚ
  vx : ℕ → ℚ
  vy : ℕ → ℚ
  vz : ℕ → ℚ
  fx : ℕ → ℚ
  fy : ℕ → ℚ
  fz : ℕ → ℚ
  pe : ℕ → ℚ

/-- The new position of atom `n` computed inside the `applyPbc` loop. -/
def pbcPos (σ : Atom) (n : ℕ) : ℚ × ℚ × ℚ :=
  let s := fracCoord σ.box (σ.x n) (σ.y n) (σ.z n)
  let sx := applyPbcOne s.1
  let sy := applyPbcOne s.2.1
  let sz := applyPbcOne s.2.2
  (σ.box 0 * sx + σ.box 1 * sy + σ.box 2 * sz,
   σ.box 3 * sx + σ.box 4 * sy + σ.box 5 * sz,
   σ.box 6 * sx + σ.box 7 * sy + σ.box 8 * sz)

/-- `applyPbc` from the source: every atom's position is rewritten through
one fractional wrap per component. -/
def applyPbc (σ : Atom) : Atom :=
  { σ with
    x := fun n => if n < σ.number then (pbcPos σ n).1 else σ.x n
    y := fun n => if n < σ.number then (pbcPos σ n).2.1 else σ.y n
    z := fun n => if n < σ.number then (pbcPos σ n).2.2 else σ.z n }

/-- Squared displacement of atom `n` from its last-rebuild reference
position, as computed inside `checkIfNeedUpdate`. -/
def dispSq (σ : Atom) (n : ℕ) : ℚ :=
  let dx := σ.x n - σ.x0 n
  let dy := σ.y n - σ.y0 n
  let dz := σ.z n - σ.z0 n
  dx * dx + dy * dy + dz * dz

/-- `checkIfNeedUpdate` from the source: true when some atom moved by more
than `0.5` (squared comparison against `0.25`) since the last rebuild. -/
def checkIfNeedUpdate (σ : Atom) : Bool :=
  (List.range σ.number).any (fun n => dispSq σ n > 1/4)

/-- `updateXyz0` from the source: snapshot current positions as the
reference positions. -/
def updateXyz0 (σ : Atom) : Atom :=
  { σ with
    x0 := fun n => if n < σ.number then σ.x n else σ.x0 n
    y0 := fun n => if n < σ.number then σ.y n else σ.y0 n
    z0 := fun n => if n < σ.number then σ.z n else σ.z0 n }

/-- The squared minimum-image distance between atoms `i` and `j` exactly as
every kernel of the source computes it: raw difference, `applyMic`, then the
sum of squares. -/
def micDistSq (σ : Atom) (i j : ℕ) : ℚ :=
  let d := applyMic σ.box (σ.x j - σ.x i) (σ.y j - σ.y i) (σ.z j - σ.z i)
  d.1 * d.1 + d.2.1 * d.2.1 + d.2.2 * d.2.2

/-- Neighbor-list build state: the counts `NN`, the flat stride-`MN` slab
`NL`, plus a log of every flat index stored into `NL` (memory
instrumentation used by the out-of-stride-store claim). -/
structure NbData where
  NN : ℕ → ℕ
  NL : ℕ → ℕ
  writes : List ℕ

/-- One statement `NL[i * MN + NN[i]++] = j` of the source: the store of
`j` at flat slot `i * MN + NN[i]` followed by the post-increment of the
count.  The stored flat index is logged. -/
def insertOne (MN i j : ℕ) (d : NbData) : NbData :=
  { NN := fun k => if k = i then d.NN i + 1 else d.NN k
    NL := fun k => if k = i * MN + d.NN i then j else d.NL k
    writes := (i * MN + d.NN i) :: d.writes }

/-- The accepted-pair block shared by both builders: insert `j` into `i`'s
list, insert `i` into `j`'s list, then run the two capacity comparisons in
source order (`exit(1)` is modelled as an `Except.error` carrying the
reported atom index, the reported cap `MN`, and the memory state at exit). -/
def pairStep (MN i j : ℕ) (d : NbData) : Except (ℕ × ℕ × NbData) NbData :=
  let d1 := insertOne MN i j d
  let d2 := insertOne MN j i d1
  if MN < d2.NN i then Except.error (i, MN, d2)
  else if MN < d2.NN j then Except.error (j, MN, d2)
  else Except.ok d2

/-- `findNeighborON2` from the source: all ordered pairs `i < j`, minimum
image distance, symmetric insertion on acceptance, capacity checks. -/
def findNeighborON2 (σ : Atom) : Except (ℕ × ℕ × NbData) NbData :=
  (List.range (σ.number - 1)).foldl
    (fun acc i =>
      ((List.range σ.number).filter (fun j => i < j)).foldl
        (fun acc2 j =>
          acc2.bind (fun d =>
            if micDistSq σ i j < σ.cutoffNeighbor * σ.cutoffNeighbor then
              pairStep σ.MN i j d
            else Except.ok d))
        acc)
    (Except.ok { NN := fun _ => 0, NL := σ.NL, writes := [] })

/-- `findNeighbor` from the source (built without `USE_ON1`, so the all-pairs
builder is selected): on a positive staleness check, bump the rebuild
counter, wrap positions, rebuild the list, snapshot reference positions;
otherwise return the state unchanged. -/
def findNeighbor (σ : Atom) : Except (ℕ × ℕ × NbData) Atom :=
  if checkIfNeedUpdate σ then
    (findNeighborON2 (applyPbc { σ with numUpdates := σ.numUpdates + 1 })).map
      (fun d =>
        updateXyz0
          { applyPbc { σ with numUpdates := σ.numUpdates + 1 } with
            NN := d.NN, NL := d.NL })
  else Except.ok σ

/-- The neighbor list of atom `i` read back from the flat slab: the `NN i`
entries at flat indices `i * MN + 0 .. i * MN + NN i - 1`. -/
def nbrList (MN : ℕ) (d : NbData) (i : ℕ) : List ℕ :=
  (List.range (d.NN i)).map (fun k => d.NL (i * MN + k))

/-- Did a builder run complete without the fatal capacity error? -/
def nbOk (r : Except (ℕ × ℕ × NbData) NbData) : Bool :=
  match r with
  | .ok _ => true
  | .error _ => false

/-- Neighbor count of atom `i` in a completed builder run. -/
def nbNN (r : Except (ℕ × ℕ × NbData) NbData) (i : ℕ) : Option ℕ :=
  match r with
  | .ok d => some (d.NN i)
  | .error _ => none

/-- Neighbor list of atom `i` in a completed builder run. -/
def nbList (MN : ℕ) (r : Except (ℕ × ℕ × NbData) NbData) (i : ℕ) :
    Option (List ℕ) :=
  match r with
  | .ok d => some (nbrList MN d i)
  | .error _ => none

/-- The atom index reported by the fatal capacity error, if any. -/
def errAtom (r : Except (ℕ × ℕ × NbData) NbData) : Option ℕ :=
  match r with
  | .error (e, _, _) => some e
  | .ok _ => none

/-- The cap value reported by the fatal capacity error, if any. -/
def errCap (r : Except (ℕ × ℕ × NbData) NbData) : Option ℕ :=
  match r with
  | .error (_, c, _) => some c
  | .ok _ => none

/-- The `NL` store log of the memory state at the fatal error. -/
def errWrites (r : Except (ℕ × ℕ × NbData) NbData) : List ℕ :=
  match r with
  | .error (_, _, d) => d.writes
  | .ok _ => []

/-- Pointwise additive update of a per-atom array at one index (the
`f[i] += v` statement shape used by the force kernels). -/
def addAt (f : ℕ → ℚ) (i : ℕ) (v : ℚ) : ℕ → ℚ :=
  fun n => if n = i then f i + v else f n

/-- The Lennard-Jones pair energy term `e4s12 * r12inv - e4s6 * r6inv`
added to `pe[i]` by `findForce`, as a function of the squared distance. -/
def ljPairPotential (r2 : ℚ) : ℚ :=
  let epsilon : ℚ := 1.032e-2
  let sigma : ℚ := 3.405
  let sigma3 := sigma * sigma * sigma
  let sigma6 := sigma3 * sigma3
  let sigma12 := sigma6 * sigma6
  let e4s6 := 4.0 * epsilon * sigma6
  let e4s12 := 4.0 * epsilon * sigma12
  let r2inv := 1 / r2
  let r4inv := r2inv * r2inv
  let r6inv := r2inv * r4inv
  let r8inv := r4inv * r4inv
  let r12inv := r4inv * r8inv
  e4s12 * r12inv - e4s6 * r6inv

/-- The Lennard-Jones force factor `f_ij = e24s6 * r8inv - e48s12 * r14inv`
computed by `findForce` (the full pair force divided by `r`, applied along
the displacement), as a function of the squared distance. -/
def ljPairForceFactor (r2 : ℚ) : ℚ :=
  let epsilon : ℚ := 1.032e-2
  let sigma : ℚ := 3.405
  let sigma3 := sigma * sigma * sigma
  let sigma6 := sigma3 * sigma3
  let sigma12 := sigma6 * sigma6
  let e24s6 := 24.0 * epsilon * sigma6
  let e48s12 := 48.0 * epsilon * sigma12
  let r2inv := 1 / r2
  let r4inv := r2inv * r2inv
  let r6inv := r2inv * r4inv
  let r8inv := r4inv * r4inv
  let r14inv := r6inv * r8inv
  e24s6 * r8inv - e48s12 * r14inv

/-- `findForce(Atom&)` from the source: the Lennard-Jones kernel.  Zero the
force and per-atom energy arrays, then for every atom `i` and every entry
`j` of its neighbor list compute the minimum-image displacement, skip the
pair if beyond the force cutoff, and accumulate `pe[i]`, `fx/fy/fz[i]` (+)
and `fx/fy/fz[j]` (−) in source order. -/
def findForce (σ : Atom) : Atom :=
  let epsilon : ℚ := 1.032e-2
  let sigma : ℚ := 3.405
  let cutoff : ℚ := 9.0
  let cutoffSquare := cutoff * cutoff
  let sigma3 := sigma * sigma * sigma
  let sigma6 := sigma3 * sigma3
  let sigma12 := sigma6 * sigma6
  let e24s6 := 24.0 * epsilon * sigma6
  let e48s12 := 48.0 * epsilon * sigma12
  let e4s6 := 4.0 * epsilon * sigma6
  let e4s12 := 4.0 * epsilon * sigma12
  let zeroed : Atom :=
    { σ with
      fx := fun n => if n < σ.number then 0 else σ.fx n
      fy := fun n => if n < σ.number then 0 else σ.fy n
      fz := fun n => if n < σ.number then 0 else σ.fz n
      pe := fun n => if n < σ.number then 0 else σ.pe n }
  (List.range σ.number).foldl
    (fun st i =>
      (List.range (σ.NN i)).foldl
        (fun st2 jj =>
          let j := σ.NL (i * σ.MN + jj)
          let d := applyMic σ.box (σ.x j - σ.x i) (σ.y j - σ.y i) (σ.z j - σ.z i)
          let r2 := d.1 * d.1 + d.2.1 * d.2.1 + d.2.2 * d.2.2
          if r2 > cutoffSquare then st2
          else
            let r2inv := 1 / r2
            let r4inv := r2inv * r2inv
            let r6inv := r2inv * r4inv
            let r8inv := r4inv * r4inv
            let r12inv := r4inv * r8inv
            let r14inv := r6inv * r8inv
            let f_ij := e24s6 * r8inv - e48s12 * r14inv
            { st2 with
              pe := addAt st2.pe i (e4s12 * r12inv - e4s6 * r6inv)
              fx := addAt (addAt st2.fx i (f_ij * d.1)) j (-(f_ij * d.1))
              fy := addAt (addAt st2.fy i (f_ij * d.2.1)) j (-(f_ij * d.2.1))
              fz := addAt (addAt st2.fz i (f_ij * d.2.2)) j (-(f_ij * d.2.2)) })
        st)
    zeroed

/-- A cubic box of side `L` with its inverse stored in slots 9..17. -/
def boxCube (L : ℚ) : ℕ → ℚ := fun k =>
  if k = 0 ∨ k = 4 ∨ k = 8 then L
  else if k = 9 ∨ k = 13 ∨ k = 17 then 1 / L
  else 0

/-- Two argon atoms 3 length units apart on the x-axis of a cubic box of
side 50, with the symmetric two-entry neighbor list relating them. -/
def ljCfg : Atom :=
  { number := 2
    box := boxCube 50
    NN := fun n => if n < 2 then 1 else 0
    NL := fun k => if k = 0 then 1 else 0
    mass := fun _ => 40
    x0 := fun _ => 0, y0 := fun _ => 0, z0 := fun _ => 0
    x := fun n => if n = 1 then 3 else 0
    y := fun _ => 0, z := fun _ => 0
    vx := fun _ => 0, vy := fun _ => 0, vz := fun _ => 0
    fx := fun _ => 0, fy := fun _ => 0, fz := fun _ => 0
    pe := fun _ => 0 }


/-- Claim C1: the spec says one `findForce` call applies force and energy
exactly once per unordered pair within the force cutoff over a symmetric
neighbor list.  The code has no `j < i` guard, so each unordered pair is
processed from both of its directed entries: on a two-atom system with a
symmetric neighbor list the net force on atom 0 is twice the full pair
force, and the aggregate of the per-atom energies is twice the pair
potential (each per-atom term is the full pair energy, not half). -/
theorem c1_findForce_double_counts_pairs :
    (findForce ljCfg).fx 0 = 2 * (ljPairForceFactor 9 * 3) ∧
    (findForce ljCfg).fx 1 = -(2 * (ljPairForceFactor 9 * 3)) ∧
    (findForce ljCfg).pe 0 + (findForce ljCfg).pe 1 = 2 * ljPairPotential 9 ∧
    ljPairForceFactor 9 * 3 ≠ 0 ∧ ljPairPotential 9 ≠ 0 := by
  norm_num [findForce, ljCfg, addAt, applyMic, applyMicOne, boxCube, micDistSq,
    ljPairForceFactor, ljPairPotential, List.range_succ]

/-- With the inverse invariant, re-expressing a matrix-vector product in
fractional coordinates recovers the fractional components. -/
lemma fracCoord_mulVec (b : ℕ → ℚ) (hInv : boxInvOk b) (hdet : getDet b ≠ 0)
    (u v w : ℚ) :
    fracCoord b (b 0 * u + b 1 * v + b 2 * w) (b 3 * u + b 4 * v + b 5 * w)
      (b 6 * u + b 7 * v + b 8 * w) = (u, v, w) := by
  have h9 := hInv 9 (by norm_num)
  have h10 := hInv 10 (by norm_num)
  have h11 := hInv 11 (by norm_num)
  have h12 := hInv 12 (by norm_num)
  have h13 := hInv 13 (by norm_num)
  have h14 := hInv 14 (by norm_num)
  have h15 := hInv 15 (by norm_num)
  have h16 := hInv 16 (by norm_num)
  have h17 := hInv 17 (by norm_num)
  simp only [getInverseBox] at h9 h10 h11 h12 h13 h14 h15 h16 h17
  norm_num at h9 h10 h11 h12 h13 h14 h15 h16 h17
  unfold fracCoord
  rw [h9, h10, h11, h12, h13, h14, h15, h16, h17]
  unfold getDet at hdet ⊢
  refine Prod.ext ?_ (Prod.ext ?_ ?_) <;> field_simp <;> ring

/-- The (amended) contract of `applyMic`: the code wraps a fractional
component by ±1 exactly when it lies outside the closed interval
`[-1/2, 1/2]`; when every input fractional component lies within
`[-3/2, 3/2]` the wrapped components land in `[-1/2, 1/2]`; the result is
the wrapped fractional vector taken back to Cartesian coordinates. -/
def micWrapSpec (b : ℕ → ℚ) (X Y Z : ℚ) : Prop :=
  let s := fracCoord b X Y Z
  let r := applyMic b X Y Z
  fracCoord b r.1 r.2.1 r.2.2
      = (applyMicOne s.1, applyMicOne s.2.1, applyMicOne s.2.2) ∧
  (-(1/2) ≤ applyMicOne s.1 ∧ applyMicOne s.1 ≤ 1/2) ∧
  (-(1/2) ≤ applyMicOne s.2.1 ∧ applyMicOne s.2.1 ≤ 1/2) ∧
  (-(1/2) ≤ applyMicOne s.2.2 ∧ applyMicOne s.2.2 ≤ 1/2) ∧
  (∀ t : ℚ, (applyMicOne t = t + 1 ↔ t < -(1/2)) ∧
            (applyMicOne t = t - 1 ↔ 1/2 < t) ∧
            (applyMicOne t = t ↔ -(1/2) ≤ t ∧ t ≤ 1/2)) ∧
  r = (b 0 * applyMicOne s.1 + b 1 * applyMicOne s.2.1 + b 2 * applyMicOne s.2.2,
       b 3 * applyMicOne s.1 + b 4 * applyMicOne s.2.1 + b 5 * applyMicOne s.2.2,
       b 6 * applyMicOne s.1 + b 7 * applyMicOne s.2.1 + b 8 * applyMicOne s.2.2)

/-- The single-shift wrap characterization of `applyMicOne`. -/
lemma applyMicOne_char (t : ℚ) :
    (applyMicOne t = t + 1 ↔ t < -(1/2)) ∧
    (applyMicOne t = t - 1 ↔ 1/2 < t) ∧
    (applyMicOne t = t ↔ -(1/2) ≤ t ∧ t ≤ 1/2) := by
  unfold applyMicOne
  split_ifs with h1 h2
  · refine ⟨⟨fun _ => h1, fun _ => rfl⟩, ⟨fun he => ?_, fun hc => ?_⟩,
           ⟨fun he => ?_, fun hc => ?_⟩⟩ <;> exfalso
    · linarith
    · linarith
    · linarith
    · linarith [hc.1]
  · refine ⟨⟨fun he => ?_, fun hc => ?_⟩, ⟨fun _ => h2, fun _ => rfl⟩,
           ⟨fun he => ?_, fun hc => ?_⟩⟩ <;> exfalso
    · linarith
    · linarith
    · linarith
    · linarith [hc.2]
  · push_neg at h1 h2
    exact ⟨⟨fun he => by linarith, fun hc => by linarith⟩,
           ⟨fun he => by linarith, fun hc => by linarith⟩,
           ⟨fun _ => ⟨h1, h2⟩, fun _ => rfl⟩⟩

/-- Claim C5, counterexample: at the concrete displacement `(-1/2, 0, 0)`
in the unit cubic box the input fractional component `-1/2` lies outside
`(-1/2, 1/2]`, yet `applyMic` does not shift it and the resulting
fractional component `-1/2` is not inside `(-1/2, 1/2]`, contradicting the
claim that every resulting fractional component lies in `(-1/2, 1/2]`. -/
theorem c5_applyMic_boundary_cex :
    (fracCoord (boxCube 1) (applyMic (boxCube 1) (-(1/2)) 0 0).1
        (applyMic (boxCube 1) (-(1/2)) 0 0).2.1
        (applyMic (boxCube 1) (-(1/2)) 0 0).2.2).1 = -(1/2) ∧
    ¬(-(1/2) < (fracCoord (boxCube 1) (applyMic (boxCube 1) (-(1/2)) 0 0).1
        (applyMic (boxCube 1) (-(1/2)) 0 0).2.1
        (applyMic (boxCube 1) (-(1/2)) 0 0).2.2).1 ∧
      (fracCoord (boxCube 1) (applyMic (boxCube 1) (-(1/2)) 0 0).1
        (applyMic (boxCube 1) (-(1/2)) 0 0).2.1
        (applyMic (boxCube 1) (-(1/2)) 0 0).2.2).1 ≤ 1/2) := by
  norm_num [fracCoord, applyMic, applyMicOne, boxCube]

/-- Claim C5, amended: `applyMic` converts the displacement to fractional
coordinates via the inverse box entries, shifts each fractional component
by ±1 exactly when it lies outside the closed interval `[-1/2, 1/2]`,
leaves every resulting fractional component inside `[-1/2, 1/2]` whenever
each input fractional component lies within `[-3/2, 3/2]` (a single shift
cannot wrap farther inputs), and converts back to Cartesian. -/
theorem c5_applyMic_wraps_once (b : ℕ → ℚ) (X Y Z : ℚ)
    (hInv : boxInvOk b) (hdet : getDet b ≠ 0)
    (h1 : -(3/2) ≤ (fracCoord b X Y Z).1 ∧ (fracCoord b X Y Z).1 ≤ 3/2)
    (h2 : -(3/2) ≤ (fracCoord b X Y Z).2.1 ∧ (fracCoord b X Y Z).2.1 ≤ 3/2)
    (h3 : -(3/2) ≤ (fracCoord b X Y Z).2.2 ∧ (fracCoord b X Y Z).2.2 ≤ 3/2) :
    micWrapSpec b X Y Z := by
  have hone : ∀ t : ℚ, -(3/2) ≤ t → t ≤ 3/2 →
      -(1/2) ≤ applyMicOne t ∧ applyMicOne t ≤ 1/2 := by
    intro t ha hb
    unfold applyMicOne
    split_ifs <;> constructor <;> linarith
  have hs : ∀ X Y Z : ℚ,
      (fracCoord b X Y Z).1 = b 9 * X + b 10 * Y + b 11 * Z ∧
      (fracCoord b X Y Z).2.1 = b 12 * X + b 13 * Y + b 14 * Z ∧
      (fracCoord b X Y Z).2.2 = b 15 * X + b 16 * Y + b 17 * Z := by
    intro X Y Z; exact ⟨rfl, rfl, rfl⟩
  unfold micWrapSpec
  refine ⟨?_, ?_, ?_, ?_, applyMicOne_char, ?_⟩
  · show fracCoord b
      (b 0 * applyMicOne (b 9 * X + b 10 * Y + b 11 * Z) + _ + _) _ _ = _
    exact fracCoord_mulVec b hInv hdet _ _ _
  · exact hone _ h1.1 h1.2
  · exact hone _ h2.1 h2.2
  · exact hone _ h3.1 h3.2
  · rfl

/-- Witness for C5: the amended statement holds at the concrete box of side
2 and displacement `(7/4, 0, 0)` (fractional component `7/8`). -/
theorem c5_applyMic_wraps_once_witness : micWrapSpec (boxCube 2) (7/4) 0 0 :=
  c5_applyMic_wraps_once (boxCube 2) (7/4) 0 0
    (by intro k hk; interval_cases k <;> norm_num [boxInvOk, getInverseBox, boxCube, getDet])
    (by norm_num [getDet, boxCube])
    (by norm_num [fracCoord, boxCube])
    (by norm_num [fracCoord, boxCube])
    (by norm_num [fracCoord, boxCube])

/-- One atom resting exactly on the far face of the unit cubic box. -/
def pbcCfg : Atom :=
  { number := 1
    box := boxCube 1
    NN := fun _ => 0
    NL := fun _ => 0
    mass := fun _ => 40
    x0 := fun _ => 0, y0 := fun _ => 0, z0 := fun _ => 0
    x := fun _ => 1, y := fun _ => 0, z := fun _ => 0
    vx := fun _ => 0, vy := fun _ => 0, vz := fun _ => 0
    fx := fun _ => 0, fy := fun _ => 0, fz := fun _ => 0
    pe := fun _ => 0 }

/-- Claim C6, counterexample: after `applyPbc` on the concrete state with
one atom at fractional coordinate exactly 1, the atom's fractional first
component is still 1, which is not inside `[0, 1)` — the wrap conditions
are strict (`s < 0`, `s > 1`), so a component exactly at 1 stays at 1. -/
theorem c6_applyPbc_boundary_cex :
    (fracCoord (applyPbc pbcCfg).box ((applyPbc pbcCfg).x 0)
        ((applyPbc pbcCfg).y 0) ((applyPbc pbcCfg).z 0)).1 = 1 ∧
    ¬((0:ℚ) ≤ (fracCoord (applyPbc pbcCfg).box ((applyPbc pbcCfg).x 0)
        ((applyPbc pbcCfg).y 0) ((applyPbc pbcCfg).z 0)).1 ∧
      (fracCoord (applyPbc pbcCfg).box ((applyPbc pbcCfg).x 0)
        ((applyPbc pbcCfg).y 0) ((applyPbc pbcCfg).z 0)).1 < 1) := by
  norm_num [fracCoord, applyPbc, pbcPos, applyPbcOne, pbcCfg, boxCube]

/-- The (amended) contract of `applyPbc`: each fractional component is
shifted by ±1 exactly when it lies outside `[0, 1]`, and for input
fractional components within `[-1, 2]` every resulting fractional
component lies in the closed interval `[0, 1]` (1 itself is reachable). -/
def pbcWrapSpec (σ : Atom) : Prop :=
  (∀ t : ℚ, (applyPbcOne t = t + 1 ↔ t < 0) ∧
            (applyPbcOne t = t - 1 ↔ 1 < t) ∧
            (applyPbcOne t = t ↔ 0 ≤ t ∧ t ≤ 1)) ∧
  ∀ n, n < σ.number →
    fracCoord σ.box ((applyPbc σ).x n) ((applyPbc σ).y n) ((applyPbc σ).z n)
      = (applyPbcOne (fracCoord σ.box (σ.x n) (σ.y n) (σ.z n)).1,
         applyPbcOne (fracCoord σ.box (σ.x n) (σ.y n) (σ.z n)).2.1,
         applyPbcOne (fracCoord σ.box (σ.x n) (σ.y n) (σ.z n)).2.2) ∧
    (0 ≤ applyPbcOne (fracCoord σ.box (σ.x n) (σ.y n) (σ.z n)).1 ∧
         applyPbcOne (fracCoord σ.box (σ.x n) (σ.y n) (σ.z n)).1 ≤ 1) ∧
    (0 ≤ applyPbcOne (fracCoord σ.box (σ.x n) (σ.y n) (σ.z n)).2.1 ∧
         applyPbcOne (fracCoord σ.box (σ.x n) (σ.y n) (σ.z n)).2.1 ≤ 1) ∧
    (0 ≤ applyPbcOne (fracCoord σ.box (σ.x n) (σ.y n) (σ.z n)).2.2 ∧
         applyPbcOne (fracCoord σ.box (σ.x n) (σ.y n) (σ.z n)).2.2 ≤ 1)

/-- The single-shift wrap characterization of `applyPbcOne`. -/
lemma applyPbcOne_char (t : ℚ) :
    (applyPbcOne t = t + 1 ↔ t < 0) ∧
    (applyPbcOne t = t - 1 ↔ 1 < t) ∧
    (applyPbcOne t = t ↔ 0 ≤ t ∧ t ≤ 1) := by
  unfold applyPbcOne
  split_ifs with h1 h2
  · refine ⟨⟨fun _ => h1, fun _ => rfl⟩, ⟨fun he => ?_, fun hc => ?_⟩,
           ⟨fun he => ?_, fun hc => ?_⟩⟩ <;> exfalso
    · linarith
    · linarith
    · linarith
    · linarith [hc.1]
  · refine ⟨⟨fun he => ?_, fun hc => ?_⟩, ⟨fun _ => h2, fun _ => rfl⟩,
           ⟨fun he => ?_, fun hc => ?_⟩⟩ <;> exfalso
    · linarith
    · linarith
    · linarith
    · linarith [hc.2]
  · push_neg at h1 h2
    exact ⟨⟨fun he => by linarith, fun hc => by linarith⟩,
           ⟨fun he => by linarith, fun hc => by linarith⟩,
           ⟨fun _ => ⟨h1, h2⟩, fun _ => rfl⟩⟩

/-- Claim C6, amended: after one `applyPbc` call, every atom's position
expressed fractionally has all components inside the closed interval
`[0, 1]` (the endpoint 1 included, since the wrap conditions are strict),
provided each input fractional component lies within `[-1, 2]` (the wrap
is a single ±1 shift). -/
theorem c6_applyPbc_wraps_once (σ : Atom)
    (hInv : boxInvOk σ.box) (hdet : getDet σ.box ≠ 0)
    (hin : ∀ n, n < σ.number →
      (-1 ≤ (fracCoord σ.box (σ.x n) (σ.y n) (σ.z n)).1 ∧
        (fracCoord σ.box (σ.x n) (σ.y n) (σ.z n)).1 ≤ 2) ∧
      (-1 ≤ (fracCoord σ.box (σ.x n) (σ.y n) (σ.z n)).2.1 ∧
        (fracCoord σ.box (σ.x n) (σ.y n) (σ.z n)).2.1 ≤ 2) ∧
      (-1 ≤ (fracCoord σ.box (σ.x n) (σ.y n) (σ.z n)).2.2 ∧
        (fracCoord σ.box (σ.x n) (σ.y n) (σ.z n)).2.2 ≤ 2)) :
    pbcWrapSpec σ := by
  have hone : ∀ t : ℚ, -1 ≤ t → t ≤ 2 →
      0 ≤ applyPbcOne t ∧ applyPbcOne t ≤ 1 := by
    intro t ha hb
    unfold applyPbcOne
    split_ifs <;> constructor <;> linarith
  refine ⟨applyPbcOne_char, fun n hn => ?_⟩
  obtain ⟨hb1, hb2, hb3⟩ := hin n hn
  refine ⟨?_, hone _ hb1.1 hb1.2, hone _ hb2.1 hb2.2, hone _ hb3.1 hb3.2⟩
  show fracCoord σ.box (if n < σ.number then (pbcPos σ n).1 else σ.x n)
      (if n < σ.number then (pbcPos σ n).2.1 else σ.y n)
      (if n < σ.number then (pbcPos σ n).2.2 else σ.z n) = _
  rw [if_pos hn, if_pos hn, if_pos hn]
  show fracCoord σ.box
      (σ.box 0 * applyPbcOne (fracCoord σ.box (σ.x n) (σ.y n) (σ.z n)).1 + _ + _)
      _ _ = _
  exact fracCoord_mulVec σ.box hInv hdet _ _ _

/-- Witness for C6: the amended statement holds at the concrete one-atom
state with position `(-1/4, 0, 0)` in the unit cubic box. -/
theorem c6_applyPbc_wraps_once_witness :
    pbcWrapSpec { pbcCfg with x := fun _ => -(1/4) } :=
  c6_applyPbc_wraps_once _
    (by intro k hk; interval_cases k <;>
          norm_num [boxInvOk, getInverseBox, pbcCfg, boxCube, getDet])
    (by norm_num [getDet, pbcCfg, boxCube])
    (by intro n hn; norm_num [fracCoord, pbcCfg, boxCube])

/-- Claim C8: `findNeighbor` triggers a rebuild exactly when some atom's
squared displacement from its last-rebuild reference position exceeds
`0.25`; with no such atom the state — neighbor list, reference positions,
positions, rebuild counter — is returned completely unchanged, and on a
completed rebuild the rebuild counter goes up by exactly one. -/
theorem c8_findNeighbor_skin_check (σ : Atom) :
    (checkIfNeedUpdate σ = true ↔ ∃ n, n < σ.number ∧ dispSq σ n > 1/4) ∧
    (checkIfNeedUpdate σ = false → findNeighbor σ = Except.ok σ) ∧
    (∀ σ2, checkIfNeedUpdate σ = true → findNeighbor σ = Except.ok σ2 →
      σ2.numUpdates = σ.numUpdates + 1) := by
  refine ⟨?_, ?_, ?_⟩
  · unfold checkIfNeedUpdate
    simp [List.any_eq_true, List.mem_range]
  · intro h
    simp [findNeighbor, h]
  · intro σ2 h heq
    rw [findNeighbor, if_pos h] at heq
    rcases hb : findNeighborON2 (applyPbc { σ with numUpdates := σ.numUpdates + 1 })
      with d | d <;> rw [hb] at heq
    · simp [Except.map] at heq
    · simp only [Except.map] at heq
      have h2 := congrArg Atom.numUpdates (Except.ok.inj heq)
      rw [← h2]
      rfl

/-- Witness for C8: a one-atom state with zero displacement since the last
rebuild is returned unchanged by `findNeighbor`. -/
theorem c8_findNeighbor_skin_check_witness :
    findNeighbor { pbcCfg with x0 := fun _ => 1 }
      = Except.ok { pbcCfg with x0 := fun _ => 1 } :=
  (c8_findNeighbor_skin_check _).2.1
    (by norm_num [checkIfNeedUpdate, dispSq, pbcCfg, List.range_succ])

/-- Interpretations of the math-library calls the source applies to
`double`s.  The structural theorems below hold for every interpretation. -/
structure MathFns where
  sqrtQ : ℚ → ℚ
  expQ : ℚ → ℚ
  cosQ : ℚ → ℚ
  sinQ : ℚ → ℚ
  powQ : ℚ → ℚ → ℚ

/-- `find_fr_and_frp` from the source (repulsive radial term). -/
def find_fr_and_frp (M : MathFns) (d12 : ℚ) : ℚ × ℚ :=
  let a : ℚ := 1393.6
  let lambda : ℚ := 3.4879
  let fr := a * M.expQ (-lambda * d12)
  (fr, -lambda * fr)

/-- `find_fa_and_fap` from the source (attractive radial term). -/
def find_fa_and_fap (M : MathFns) (d12 : ℚ) : ℚ × ℚ :=
  let b : ℚ := 430.0
  let mu : ℚ := 2.2119
  let fa := b * M.expQ (-mu * d12)
  (fa, -mu * fa)

/-- `find_fa` from the source. -/
def find_fa (M : MathFns) (d12 : ℚ) : ℚ :=
  let b : ℚ := 430.0
  let mu : ℚ := 2.2119
  b * M.expQ (-mu * d12)

/-- `find_fc_and_fcp` from the source (cosine cutoff taper, radii 1.8 and
2.1). -/
def find_fc_and_fcp (M : MathFns) (d12 : ℚ) : ℚ × ℚ :=
  let r1 : ℚ := 1.8
  let r2 : ℚ := 2.1
  let pi : ℚ := 3.141592653589793
  let pi_factor := pi / (r2 - r1)
  if d12 < r1 then (1, 0)
  else if d12 < r2 then
    (M.cosQ (pi_factor * (d12 - r1)) * 0.5 + 0.5,
     -M.sinQ (pi_factor * (d12 - r1)) * pi_factor * 0.5)
  else (0, 0)

/-- `find_fc` from the source. -/
def find_fc (M : MathFns) (d12 : ℚ) : ℚ :=
  let r1 : ℚ := 1.8
  let r2 : ℚ := 2.1
  let pi : ℚ := 3.141592653589793
  let pi_factor := pi / (r2 - r1)
  if d12 < r1 then 1
  else if d12 < r2 then M.cosQ (pi_factor * (d12 - r1)) * 0.5 + 0.5
  else 0

/-- `find_g_and_gp` from the source (angular function and derivative). -/
def find_g_and_gp (cosv : ℚ) : ℚ × ℚ :=
  let c : ℚ := 38049.0
  let d : ℚ := 4.3484
  let h : ℚ := -0.930
  let c2 := c * c
  let d2 := d * d
  let c2overd2 := c2 / d2
  let temp := d2 + (cosv - h) * (cosv - h)
  (1.0 + c2overd2 - c2 / temp, 2.0 * c2 * (cosv - h) / (temp * temp))

/-- `find_g` from the source. -/
def find_g (cosv : ℚ) : ℚ :=
  let c : ℚ := 38049.0
  let d : ℚ := 4.3484
  let h : ℚ := -0.930
  let c2 := c * c
  let d2 := d * d
  let c2overd2 := c2 / d2
  let temp := d2 + (cosv - h) * (cosv - h)
  1.0 + c2overd2 - c2 / temp

/-- The minimum-image displacement and length product used throughout the
bond-order kernel for the directed pair `n1 → n2`. -/
def micVec (box : ℕ → ℚ) (x y z : ℕ → ℚ) (n1 n2 : ℕ) : ℚ × ℚ × ℚ :=
  applyMic box (x n2 - x n1) (y n2 - y n1) (z n2 - z n1)

/-- Squared length of `micVec`. -/
def micVecSq (box : ℕ → ℚ) (x y z : ℕ → ℚ) (n1 n2 : ℕ) : ℚ :=
  let d := micVec box x y z n1 n2
  d.1 * d.1 + d.2.1 * d.2.1 + d.2.2 * d.2.2

/-- The three-body sum `zeta` accumulated by `find_b_and_bp` for the
directed bond stored in slot `i1` of atom `n1`'s neighbor list. -/
def zetaOf (M : MathFns) (box : ℕ → ℚ) (NN : ℕ → ℕ) (NL : ℕ → ℕ) (MN : ℕ)
    (x y z : ℕ → ℚ) (n1 i1 : ℕ) : ℚ :=
  let n2 := NL (n1 * MN + i1)
  let d12v := micVec box x y z n1 n2
  let d12 := M.sqrtQ (micVecSq box x y z n1 n2)
  (List.range (NN n1)).foldl
    (fun acc i2 =>
      let n3 := NL (n1 * MN + i2)
      if n3 = n2 then acc
      else
        let d13v := micVec box x y z n1 n3
        let d13 := M.sqrtQ (micVecSq box x y z n1 n3)
        let cosv := (d12v.1 * d13v.1 + d12v.2.1 * d13v.2.1 + d12v.2.2 * d13v.2.2)
          / (d12 * d13)
        acc + find_fc M d13 * find_g cosv)
    0

/-- `bzn = pow(beta * zeta, n)` from `find_b_and_bp`. -/
def bznOf (M : MathFns) (box : ℕ → ℚ) (NN : ℕ → ℕ) (NL : ℕ → ℕ) (MN : ℕ)
    (x y z : ℕ → ℚ) (n1 i1 : ℕ) : ℚ :=
  let beta : ℚ := 1.5724e-7
  let n : ℚ := 0.72751
  M.powQ (beta * zetaOf M box NN NL MN x y z n1 i1) n

/-- `b12 = pow(1 + bzn, -0.5/n)` from `find_b_and_bp`. -/
def bOf (M : MathFns) (box : ℕ → ℚ) (NN : ℕ → ℕ) (NL : ℕ → ℕ) (MN : ℕ)
    (x y z : ℕ → ℚ) (n1 i1 : ℕ) : ℚ :=
  let n : ℚ := 0.72751
  let minus_half_over_n := -0.5 / n
  M.powQ (1.0 + bznOf M box NN NL MN x y z n1 i1) minus_half_over_n

/-- The divisor `(1.0 + bzn) * zeta` of the unguarded division that
produces `bp` in `find_b_and_bp` (source line
`bp[n1 * MN + i1] = -b12 * bzn * 0.5 / ((1.0 + bzn) * zeta);`). -/
def bpDenom (M : MathFns) (box : ℕ → ℚ) (NN : ℕ → ℕ) (NL : ℕ → ℕ) (MN : ℕ)
    (x y z : ℕ → ℚ) (n1 i1 : ℕ) : ℚ :=
  (1.0 + bznOf M box NN NL MN x y z n1 i1) * zetaOf M box NN NL MN x y z n1 i1

/-- The value stored into `bp[n1 * MN + i1]` by `find_b_and_bp`. -/
def bpOf (M : MathFns) (box : ℕ → ℚ) (NN : ℕ → ℕ) (NL : ℕ → ℕ) (MN : ℕ)
    (x y z : ℕ → ℚ) (n1 i1 : ℕ) : ℚ :=
  -bOf M box NN NL MN x y z n1 i1 * bznOf M box NN NL MN x y z n1 i1 * 0.5 /
    bpDenom M box NN NL MN x y z n1 i1

/-- `find_b_and_bp` from the source: fill the bond-order array `b` and its
derivative array `bp`, one slot per directed neighbor-list entry (`b0`,
`bp0` are the caller's arrays before the call). -/
def find_b_and_bp (M : MathFns) (box : ℕ → ℚ) (N : ℕ) (NN : ℕ → ℕ)
    (NL : ℕ → ℕ) (MN : ℕ) (x y z : ℕ → ℚ) (b0 bp0 : ℕ → ℚ) :
    (ℕ → ℚ) × (ℕ → ℚ) :=
  (List.range N).foldl
    (fun acc n1 =>
      (List.range (NN n1)).foldl
        (fun acc2 i1 =>
          (fun k => if k = n1 * MN + i1
              then bOf M box NN NL MN x y z n1 i1 else acc2.1 k,
           fun k => if k = n1 * MN + i1
              then bpOf M box NN NL MN x y z n1 i1 else acc2.2 k))
        acc)
    (b0, bp0)

/-- Claim C10: in `find_b_and_bp` the derivative `bp` of the bond order is
produced by dividing by `(1.0 + bzn) * zeta` with no guard, and the zero
divisor is reachable under the stated preconditions: on the two-atom
configuration `ljCfg` (a legitimate symmetric duplicate-free neighbor
list, atom 0 having no third neighbor), the three-body sum `zeta` of the
bond `0 → 1` is exactly 0, hence the divisor is exactly 0 — for every
interpretation `M` of the math-library calls and any incoming arrays. -/
theorem c10_find_b_and_bp_zero_divisor :
    ∀ (M : MathFns) (b0 bp0 : ℕ → ℚ),
      zetaOf M ljCfg.box ljCfg.NN ljCfg.NL ljCfg.MN ljCfg.x ljCfg.y ljCfg.z 0 0
          = 0 ∧
      bpDenom M ljCfg.box ljCfg.NN ljCfg.NL ljCfg.MN ljCfg.x ljCfg.y ljCfg.z 0 0
          = 0 ∧
      (find_b_and_bp M ljCfg.box ljCfg.number ljCfg.NN ljCfg.NL ljCfg.MN
          ljCfg.x ljCfg.y ljCfg.z b0 bp0).2 0
        = -bOf M ljCfg.box ljCfg.NN ljCfg.NL ljCfg.MN ljCfg.x ljCfg.y ljCfg.z 0 0
            * bznOf M ljCfg.box ljCfg.NN ljCfg.NL ljCfg.MN ljCfg.x ljCfg.y ljCfg.z 0 0
            * 0.5 / bpDenom M ljCfg.box ljCfg.NN ljCfg.NL ljCfg.MN
                ljCfg.x ljCfg.y ljCfg.z 0 0 := by
  intro M b0 bp0
  have hz : zetaOf M ljCfg.box ljCfg.NN ljCfg.NL ljCfg.MN
      ljCfg.x ljCfg.y ljCfg.z 0 0 = 0 := by
    norm_num [zetaOf, ljCfg, List.range_succ]
  refine ⟨hz, ?_, ?_⟩
  · rw [bpDenom, hz, mul_zero]
  · norm_num [find_b_and_bp, bpOf, ljCfg, List.range_succ]

/-- One candidate-pair visit of a neighbor-list builder: on acceptance run
the shared insert-insert-check-check block, otherwise leave the state. -/
def visitStep (MN : ℕ) (accept : ℕ → ℕ → Prop) [DecidableRel accept]
    (r : Except (ℕ × ℕ × NbData) NbData) (p : ℕ × ℕ) :
    Except (ℕ × ℕ × NbData) NbData :=
  r.bind (fun d => if accept p.1 p.2 then pairStep MN p.1 p.2 d else Except.ok d)

/-- A builder run presented as the fold of its visit sequence. -/
def processVisits (MN : ℕ) (accept : ℕ → ℕ → Prop) [DecidableRel accept]
    (vs : List (ℕ × ℕ)) (d0 : NbData) : Except (ℕ × ℕ × NbData) NbData :=
  vs.foldl (visitStep MN accept) (Except.ok d0)

/-- The partners inserted into atom `i`'s list by a visit sequence, in
insertion order. -/
def partnersOf (accept : ℕ → ℕ → Prop) [DecidableRel accept]
    (vs : List (ℕ × ℕ)) (i : ℕ) : List ℕ :=
  vs.filterMap (fun p =>
    if accept p.1 p.2 then
      if p.1 = i then some p.2 else if p.2 = i then some p.1 else none
    else none)

/-- The visit sequence of `findNeighborON2`: all ordered pairs `i < j` in
lexicographic order. -/
def lexVisits (N : ℕ) : List (ℕ × ℕ) :=
  (List.range (N - 1)).flatMap
    (fun i => ((List.range N).filter (fun j => i < j)).map (fun j => (i, j)))

lemma foldl_flatMap {α β γ : Type} (g : β → α → β) (f : γ → List α)
    (l : List γ) (init : β) :
    (l.flatMap f).foldl g init = l.foldl (fun acc c => (f c).foldl g acc) init := by
  induction l generalizing init with
  | nil => rfl
  | cons c cs ih => simp only [List.flatMap_cons, List.foldl_append, ih,
      List.foldl_cons]

/-- `findNeighborON2` is the fold of its lexicographic visit sequence. -/
lemma findNeighborON2_eq_processVisits (σ : Atom) :
    findNeighborON2 σ = processVisits σ.MN
      (fun i j => micDistSq σ i j < σ.cutoffNeighbor * σ.cutoffNeighbor)
      (lexVisits σ.number)
      { NN := fun _ => 0, NL := σ.NL, writes := [] } := by
  unfold findNeighborON2 processVisits lexVisits
  rw [foldl_flatMap]
  congr 1
  funext acc i
  rw [List.foldl_map]
  rfl

lemma slot_ne_of_ne {MN i a k m : ℕ} (hk : k < MN) (hm : m < MN) (hne : i ≠ a) :
    i * MN + k ≠ a * MN + m := by
  intro he
  apply hne
  have hMN : 0 < MN := lt_of_le_of_lt (Nat.zero_le k) hk
  have h1 : (i * MN + k) / MN = i := by
    rw [Nat.mul_comm, Nat.mul_add_div hMN, Nat.div_eq_of_lt hk, Nat.add_zero]
  have h2 : (a * MN + m) / MN = a := by
    rw [Nat.mul_comm, Nat.mul_add_div hMN, Nat.div_eq_of_lt hm, Nat.add_zero]
  rw [← h1, ← h2, he]

lemma partnersOf_append (accept : ℕ → ℕ → Prop) [DecidableRel accept]
    (vs ws : List (ℕ × ℕ)) (i : ℕ) :
    partnersOf accept (vs ++ ws) i
      = partnersOf accept vs i ++ partnersOf accept ws i := by
  unfold partnersOf
  exact List.filterMap_append _ _ _

lemma partnersOf_single_self (accept : ℕ → ℕ → Prop) [DecidableRel accept]
    {a b : ℕ} (hacc : accept a b) :
    partnersOf accept [(a, b)] a = [b] := by
  simp [partnersOf, hacc]

lemma partnersOf_single_other (accept : ℕ → ℕ → Prop) [DecidableRel accept]
    {a b : ℕ} (hacc : accept a b) (hab : a ≠ b) :
    partnersOf accept [(a, b)] b = [a] := by
  simp [partnersOf, hacc, hab]

lemma partnersOf_single_none (accept : ℕ → ℕ → Prop) [DecidableRel accept]
    {a b : ℕ} (i : ℕ) (hacc : accept a b) (hia : i ≠ a) (hib : i ≠ b) :
    partnersOf accept [(a, b)] i = [] := by
  simp [partnersOf, hacc, Ne.symm hia, Ne.symm hib]

lemma partnersOf_single_rej (accept : ℕ → ℕ → Prop) [DecidableRel accept]
    {a b : ℕ} (i : ℕ) (hacc : ¬accept a b) :
    partnersOf accept [(a, b)] i = [] := by
  simp [partnersOf, hacc]

lemma getD_append_left {l m : List ℕ} {k : ℕ} (h : k < l.length) :
    (l ++ m).getD k 0 = l.getD k 0 := by
  rw [List.getD_eq_getElem?_getD, List.getElem?_append_left h,
    ← List.getD_eq_getElem?_getD]

lemma getD_append_self {l : List ℕ} {v : ℕ} :
    (l ++ [v]).getD l.length 0 = v := by
  rw [List.getD_eq_getElem?_getD, List.getElem?_append_right (le_refl _)]
  simp

lemma processVisits_append (MN : ℕ) (accept : ℕ → ℕ → Prop) [DecidableRel accept]
    (vs ws : List (ℕ × ℕ)) (d0 : NbData) :
    processVisits MN accept (vs ++ ws) d0
      = ws.foldl (visitStep MN accept) (processVisits MN accept vs d0) := by
  unfold processVisits
  exact List.foldl_append _ _ _ _

/-- Characterization of a builder run that never hits the capacity error:
it returns `ok`, every count equals the number of accepted insertions for
that atom, and the slots hold exactly those partners in insertion order. -/
lemma processVisits_ok (MN : ℕ) (accept : ℕ → ℕ → Prop) [DecidableRel accept]
    (vs : List (ℕ × ℕ)) (d0 : NbData)
    (h0 : ∀ i, d0.NN i = 0)
    (hwf : ∀ p ∈ vs, p.1 < p.2)
    (hcap : ∀ i, (partnersOf accept vs i).length ≤ MN) :
    ∃ dF, processVisits MN accept vs d0 = Except.ok dF ∧
      (∀ i, dF.NN i = (partnersOf accept vs i).length) ∧
      (∀ i k, k < (partnersOf accept vs i).length →
        dF.NL (i * MN + k) = (partnersOf accept vs i).getD k 0) := by
  induction vs using List.reverseRecOn with
  | nil =>
    refine ⟨d0, rfl, fun i => ?_, fun i k hk => ?_⟩
    · rw [h0]; rfl
    · exact absurd hk (by simp [partnersOf])
  | append_singleton vs v ih =>
    have hwf2 : ∀ p ∈ vs, p.1 < p.2 := fun p hp => hwf p (by simp [hp])
    have hcap2 : ∀ i, (partnersOf accept vs i).length ≤ MN := by
      intro i
      have := hcap i
      rw [partnersOf_append, List.length_append] at this
      omega
    obtain ⟨dF, hrun, hNN, hNL⟩ := ih hwf2 hcap2
    rcases v with ⟨a, b⟩
    have hab : a < b := hwf (a, b) (by simp)
    have hne : a ≠ b := Nat.ne_of_lt hab
    have hneb : (b = a) = False := by simp [Ne.symm hne]
    have hrw : processVisits MN accept (vs ++ [(a, b)]) d0
        = visitStep MN accept (Except.ok dF) (a, b) := by
      rw [processVisits_append, hrun]
      rfl
    by_cases hacc : accept a b
    · -- accepted: two insertions, both capacity checks pass
      have hlena : (partnersOf accept vs a).length + 1 ≤ MN := by
        have := hcap a
        rw [partnersOf_append, List.length_append,
          partnersOf_single_self accept hacc] at this
        simpa using this
      have hlenb : (partnersOf accept vs b).length + 1 ≤ MN := by
        have := hcap b
        rw [partnersOf_append, List.length_append,
          partnersOf_single_other accept hacc hne] at this
        simpa using this
      have hlb : dF.NN b < MN := by rw [hNN]; omega
      have hla : dF.NN a < MN := by rw [hNN]; omega
      refine ⟨insertOne MN b a (insertOne MN a b dF), ?_, ?_, ?_⟩
      · rw [hrw]
        show (if accept a b then pairStep MN a b dF else Except.ok dF) = _
        rw [if_pos hacc]
        unfold pairStep
        have e1 : (insertOne MN b a (insertOne MN a b dF)).NN a = dF.NN a + 1 := by
          simp [insertOne, hneb, hne]
        have e2 : (insertOne MN b a (insertOne MN a b dF)).NN b = dF.NN b + 1 := by
          simp [insertOne, hneb, hne]
        rw [if_neg (by rw [e1, hNN]; omega), if_neg (by rw [e2, hNN]; omega)]
      · intro i
        rw [partnersOf_append, List.length_append]
        by_cases hia : i = a
        · rw [hia, partnersOf_single_self accept hacc]
          simp [insertOne, hneb, hne, hNN]
        · by_cases hib : i = b
          · rw [hib, partnersOf_single_other accept hacc hne]
            simp [insertOne, hneb, hne, hNN]
          · rw [partnersOf_single_none accept i hacc hia hib]
            simp [insertOne, hia, hib, hNN]
      · intro i k hk
        by_cases hia : i = a
        · rw [hia] at hk ⊢
          rw [partnersOf_append, List.length_append,
            partnersOf_single_self accept hacc, List.length_singleton] at hk
          rw [partnersOf_append, partnersOf_single_self accept hacc]
          rcases Nat.lt_or_ge k (partnersOf accept vs a).length with hlt | hge
          · have hkMN : k < MN := by omega
            have h1 : a * MN + k ≠ b * MN + dF.NN b :=
              slot_ne_of_ne hkMN hlb hne
            have h2 : a * MN + k ≠ a * MN + dF.NN a := by rw [hNN]; omega
            simp only [insertOne, hneb, if_false]
            rw [if_neg h1, if_neg h2, hNL a k hlt, getD_append_left hlt]
          · have hke : k = (partnersOf accept vs a).length := by omega
            have hkMN : k < MN := by omega
            have h1 : a * MN + k ≠ b * MN + dF.NN b :=
              slot_ne_of_ne hkMN hlb hne
            simp only [insertOne, hneb, if_false]
            rw [if_neg h1, if_pos (by rw [hNN, hke]), hke, getD_append_self]
        · by_cases hib : i = b
          · rw [hib] at hk ⊢
            rw [partnersOf_append, List.length_append,
              partnersOf_single_other accept hacc hne, List.length_singleton] at hk
            rw [partnersOf_append, partnersOf_single_other accept hacc hne]
            rcases Nat.lt_or_ge k (partnersOf accept vs b).length with hlt | hge
            · have hkMN : k < MN := by omega
              have h1 : b * MN + k ≠ b * MN + dF.NN b := by rw [hNN]; omega
              have h2 : b * MN + k ≠ a * MN + dF.NN a :=
                slot_ne_of_ne hkMN hla (Ne.symm hne)
              simp only [insertOne, hneb, if_false]
              rw [if_neg h1, if_neg h2, hNL b k hlt, getD_append_left hlt]
            · have hke : k = (partnersOf accept vs b).length := by omega
              simp only [insertOne, hneb, if_false]
              rw [if_pos (by rw [hNN, hke]), hke, getD_append_self]
          · rw [partnersOf_append, List.length_append,
              partnersOf_single_none accept i hacc hia hib] at hk
            simp only [List.length_nil, Nat.add_zero] at hk
            rw [partnersOf_append, partnersOf_single_none accept i hacc hia hib,
              List.append_nil]
            have hkMN : k < MN := lt_of_lt_of_le hk (hcap2 i)
            have h1 : i * MN + k ≠ b * MN + dF.NN b :=
              slot_ne_of_ne hkMN hlb hib
            have h2 : i * MN + k ≠ a * MN + dF.NN a :=
              slot_ne_of_ne hkMN hla hia
            simp only [insertOne, hneb, if_false]
            rw [if_neg h1, if_neg h2, hNL i k hk]
    · -- rejected: nothing changes
      have hsame : ∀ i, partnersOf accept (vs ++ [(a, b)]) i
          = partnersOf accept vs i := by
        intro i
        rw [partnersOf_append, partnersOf_single_rej accept i hacc,
          List.append_nil]
      refine ⟨dF, ?_, ?_, ?_⟩
      · rw [hrw]
        show (if accept a b then pairStep MN a b dF else Except.ok dF) = _
        rw [if_neg hacc]
      · intro i; rw [hsame, hNN]
      · intro i k hk
        rw [hsame] at hk ⊢
        exact hNL i k hk

/-- Characterization of a builder run in which some atom's accepted
insertion count exceeds the cap: the run aborts with the fatal error, the
reported atom is genuinely over the cap, the reported cap value is `MN`,
and the flat index `e * MN + MN` — one past atom `e`'s stride region — has
already been stored to when the run aborts. -/
lemma processVisits_error (MN : ℕ) (accept : ℕ → ℕ → Prop) [DecidableRel accept]
    (vs : List (ℕ × ℕ)) (d0 : NbData)
    (h0 : ∀ i, d0.NN i = 0)
    (hwf : ∀ p ∈ vs, p.1 < p.2)
    (hbad : ∃ i, MN < (partnersOf accept vs i).length) :
    ∃ e dE, processVisits MN accept vs d0 = Except.error (e, MN, dE) ∧
      MN < (partnersOf accept vs e).length ∧
      (e * MN + MN) ∈ dE.writes := by
  induction vs using List.reverseRecOn with
  | nil =>
    obtain ⟨i, hi⟩ := hbad
    exact absurd hi (by simp [partnersOf])
  | append_singleton vs v ih =>
    have hwf2 : ∀ p ∈ vs, p.1 < p.2 := fun p hp => hwf p (by simp [hp])
    rcases v with ⟨a, b⟩
    have hab : a < b := hwf (a, b) (by simp)
    have hne : a ≠ b := Nat.ne_of_lt hab
    have hneb : (b = a) = False := by simp [Ne.symm hne]
    by_cases hprev : ∃ i, MN < (partnersOf accept vs i).length
    · obtain ⟨e, dE, hrun, hlen, hmem⟩ := ih hwf2 hprev
      refine ⟨e, dE, ?_, ?_, hmem⟩
      · rw [processVisits_append, hrun]
        rfl
      · have : (partnersOf accept vs e).length
            ≤ (partnersOf accept (vs ++ [(a, b)]) e).length := by
          rw [partnersOf_append, List.length_append]
          omega
        omega
    · push_neg at hprev
      obtain ⟨dF, hrun, hNN, hNL⟩ := processVisits_ok MN accept vs d0 h0 hwf2 hprev
      obtain ⟨i0, hi0⟩ := hbad
      -- the new visit must be accepted and push a or b over the cap
      by_cases hacc : accept a b
      case neg =>
        rw [partnersOf_append, partnersOf_single_rej accept i0 hacc,
          List.append_nil] at hi0
        exact absurd hi0 (by have := hprev i0; omega)
      case pos =>
      have hover : MN < (partnersOf accept vs a).length + 1 ∨
          MN < (partnersOf accept vs b).length + 1 := by
        by_cases hia : i0 = a
        · left
          rw [hia, partnersOf_append, List.length_append,
            partnersOf_single_self accept hacc, List.length_singleton] at hi0
          omega
        · by_cases hib : i0 = b
          · right
            rw [hib, partnersOf_append, List.length_append,
              partnersOf_single_other accept hacc hne, List.length_singleton] at hi0
            omega
          · rw [partnersOf_append, partnersOf_single_none accept i0 hacc hia hib,
              List.append_nil] at hi0
            exact absurd hi0 (by have := hprev i0; omega)
      have hrw : processVisits MN accept (vs ++ [(a, b)]) d0
          = visitStep MN accept (Except.ok dF) (a, b) := by
        rw [processVisits_append, hrun]
        rfl
      have hstep : visitStep MN accept (Except.ok dF) (a, b)
          = pairStep MN a b dF := by
        show (if accept a b then pairStep MN a b dF else Except.ok dF) = _
        rw [if_pos hacc]
      have eNNa : (insertOne MN b a (insertOne MN a b dF)).NN a = dF.NN a + 1 := by
        simp [insertOne, hneb, hne]
      have eNNb : (insertOne MN b a (insertOne MN a b dF)).NN b = dF.NN b + 1 := by
        simp [insertOne, hneb, hne]
      by_cases hovA : MN < dF.NN a + 1
      · -- error reported for a
        refine ⟨a, insertOne MN b a (insertOne MN a b dF), ?_, ?_, ?_⟩
        · rw [hrw, hstep]
          unfold pairStep
          rw [if_pos (by rw [eNNa]; exact hovA)]
        · rw [partnersOf_append, List.length_append,
            partnersOf_single_self accept hacc, List.length_singleton]
          rw [hNN] at hovA
          omega
        · have hlena : dF.NN a = MN := by
            have h1 := hprev a
            have h2 := hovA
            rw [hNN] at h2 ⊢
            omega
          simp only [insertOne]
          rw [← hlena]
          simp
      · -- the b check fires
        have hovB : MN < dF.NN b + 1 := by
          rw [hNN]
          rcases hover with h | h
          · exact absurd h (by rw [hNN] at hovA; omega)
          · exact h
        refine ⟨b, insertOne MN b a (insertOne MN a b dF), ?_, ?_, ?_⟩
        · rw [hrw, hstep]
          unfold pairStep
          rw [if_neg (by rw [eNNa]; exact hovA), if_pos (by rw [eNNb]; exact hovB)]
        · rw [partnersOf_append, List.length_append,
            partnersOf_single_other accept hacc hne, List.length_singleton]
          rw [hNN] at hovB
          omega
        · have hlenb : dF.NN b = MN := by
            have h1 := hprev b
            have h2 := hovB
            rw [hNN] at h2 ⊢
            omega
          simp only [insertOne, hneb, if_false]
          rw [← hlenb]
          simp

lemma mem_lexVisits {N : ℕ} {p : ℕ × ℕ} :
    p ∈ lexVisits N ↔ p.1 < p.2 ∧ p.2 < N := by
  unfold lexVisits
  simp only [List.mem_flatMap, List.mem_map, List.mem_filter, List.mem_range,
    decide_eq_true_eq]
  constructor
  · rintro ⟨i, hi, j, ⟨hjN, hij⟩, rfl⟩
    exact ⟨hij, hjN⟩
  · rintro ⟨h1, h2⟩
    exact ⟨p.1, by omega, p.2, ⟨h2, h1⟩, rfl⟩

lemma lexVisits_wf {N : ℕ} : ∀ p ∈ lexVisits N, p.1 < p.2 :=
  fun _ hp => (mem_lexVisits.mp hp).1

lemma lexVisits_nodup (N : ℕ) : (lexVisits N).Nodup := by
  unfold lexVisits
  rw [List.nodup_flatMap]
  constructor
  · intro a _
    refine List.Nodup.map ?_ (List.Nodup.filter _ (List.nodup_range N))
    intro x y hxy
    simpa using congrArg Prod.snd hxy
  · refine (List.pairwise_lt_range (N - 1)).imp ?_
    intro a b hab p hp1 hp2
    simp only [List.mem_map, List.mem_filter] at hp1 hp2
    obtain ⟨j1, _, rfl⟩ := hp1
    obtain ⟨j2, _, he⟩ := hp2
    have := congrArg Prod.fst he
    simp at this
    omega

lemma mem_partnersOf_wf {accept : ℕ → ℕ → Prop} [DecidableRel accept]
    {vs : List (ℕ × ℕ)} (hwf : ∀ p ∈ vs, p.1 < p.2) (i j : ℕ) :
    j ∈ partnersOf accept vs i ↔
      (accept i j ∧ (i, j) ∈ vs) ∨ (accept j i ∧ (j, i) ∈ vs) := by
  unfold partnersOf
  rw [List.mem_filterMap]
  constructor
  · rintro ⟨⟨p1, p2⟩, hp, hfp⟩
    dsimp at hfp
    by_cases h1 : accept p1 p2
    · rw [if_pos h1] at hfp
      by_cases h2 : p1 = i
      · rw [if_pos h2] at hfp
        have hj := Option.some.inj hfp
        left
        subst h2
        subst hj
        exact ⟨h1, hp⟩
      · rw [if_neg h2] at hfp
        by_cases h3 : p2 = i
        · rw [if_pos h3] at hfp
          have hj := Option.some.inj hfp
          right
          subst h3
          subst hj
          exact ⟨h1, hp⟩
        · rw [if_neg h3] at hfp
          exact Option.noConfusion hfp
    · rw [if_neg h1] at hfp
      exact Option.noConfusion hfp
  · rintro (⟨hacc, hmem⟩ | ⟨hacc, hmem⟩)
    · exact ⟨(i, j), hmem, by simp [hacc]⟩
    · have hji : j < i := hwf (j, i) hmem
      refine ⟨(j, i), hmem, ?_⟩
      have hne : ¬(j = i) := by omega
      simp [hacc, hne]

lemma partnersOf_nodup {accept : ℕ → ℕ → Prop} [DecidableRel accept]
    {vs : List (ℕ × ℕ)} (hwf : ∀ p ∈ vs, p.1 < p.2) (hnd : vs.Nodup) (i : ℕ) :
    (partnersOf accept vs i).Nodup := by
  unfold partnersOf
  rw [List.filterMap_congr (g := fun p =>
    if p.1 < p.2 then
      (if accept p.1 p.2 then
        if p.1 = i then some p.2 else if p.2 = i then some p.1 else none
      else none)
    else none)]
  · refine List.Nodup.filterMap ?_ hnd
    have hshape : ∀ (p : ℕ × ℕ) (b : ℕ),
        (if p.1 < p.2 then
          (if accept p.1 p.2 then
            if p.1 = i then some p.2 else if p.2 = i then some p.1 else none
          else none)
        else none) = some b →
        p.1 < p.2 ∧ ((p.1 = i ∧ p.2 = b) ∨ (p.2 = i ∧ p.1 = b)) := by
      rintro ⟨p1, p2⟩ b h
      dsimp at h
      split_ifs at h with h1 h2 h3 h4 <;>
        first
          | exact Option.noConfusion h
          | exact ⟨h1, Or.inl ⟨h3, Option.some.inj h⟩⟩
          | exact ⟨h1, Or.inr ⟨h4, Option.some.inj h⟩⟩
    rintro ⟨p1, p2⟩ ⟨q1, q2⟩ b hb1 hb2
    rw [Option.mem_def] at hb1 hb2
    obtain ⟨ho1, hc1⟩ := hshape _ _ hb1
    obtain ⟨ho2, hc2⟩ := hshape _ _ hb2
    dsimp at ho1 ho2 hc1 hc2
    rcases hc1 with ⟨e1, e2⟩ | ⟨e1, e2⟩ <;> rcases hc2 with ⟨e3, e4⟩ | ⟨e3, e4⟩
    · refine Prod.ext ?_ ?_ <;> dsimp <;> omega
    · exfalso; omega
    · exfalso; omega
    · refine Prod.ext ?_ ?_ <;> dsimp <;> omega
  · intro p hp
    rw [if_pos (hwf p hp)]

/-- `getArea` from the source: the norm of the cross product of two lattice
vectors (`S` interprets the `sqrt` call). -/
def getArea (S : ℚ → ℚ) (a b : ℚ × ℚ × ℚ) : ℚ :=
  let s1 := a.2.1 * b.2.2 - a.2.2 * b.2.1
  let s2 := a.2.2 * b.1 - a.1 * b.2.2
  let s3 := a.1 * b.2.1 - a.2.1 * b.1
  S (s1 * s1 + s2 * s2 + s3 * s3)

/-- `getThickness` from the source: perpendicular distances between
opposite box faces (`volume / area`), one per axis. -/
def getThickness (S : ℚ → ℚ) (box : ℕ → ℚ) : ℚ × ℚ × ℚ :=
  let volume := |getDet box|
  let a := (box 0, box 3, box 6)
  let b := (box 1, box 4, box 7)
  let c := (box 2, box 5, box 8)
  (volume / getArea S b c, volume / getArea S c a, volume / getArea S a b)

/-- The two sequential conditional corrections applied to a cell
coordinate by `findCell` (`+= n` when negative, then `-= n` when at least
`n`). -/
def wrapCell (v n : ℤ) : ℤ :=
  let v1 := if v < 0 then v + n else v
  if v1 ≥ n then v1 - n else v1

/-- `findCell` from the source: fractional coordinates, per-axis flooring
against `thickness/cutoff`, the wrap corrections, and the composite cell
index `c0 + n0 * (c1 + n1 * c2)`. -/
def findCell (box : ℕ → ℚ) (thickness : ℚ × ℚ × ℚ) (r : ℚ × ℚ × ℚ)
    (cutoffInverse : ℚ) (numCells : ℤ × ℤ × ℤ) : ℤ × ℤ × ℤ × ℤ :=
  let s0 := box 9 * r.1 + box 10 * r.2.1 + box 11 * r.2.2
  let s1 := box 12 * r.1 + box 13 * r.2.1 + box 14 * r.2.2
  let s2 := box 15 * r.1 + box 16 * r.2.1 + box 17 * r.2.2
  let c0 := wrapCell ⌊s0 * thickness.1 * cutoffInverse⌋ numCells.1
  let c1 := wrapCell ⌊s1 * thickness.2.1 * cutoffInverse⌋ numCells.2.1
  let c2 := wrapCell ⌊s2 * thickness.2.2 * cutoffInverse⌋ numCells.2.2
  (c0, c1, c2, c0 + numCells.1 * (c1 + numCells.2.1 * c2))

/-- The first counting pass of `findNeighborON1`: per-cell atom counts. -/
def cellCounts (cellIdx : ℕ → ℤ) (N : ℕ) : ℤ → ℕ :=
  (List.range N).foldl
    (fun cnt n => fun q => if q = cellIdx n then cnt q + 1 else cnt q)
    (fun _ => 0)

/-- The exclusive prefix sums `cellCountSum` of `findNeighborON1`. -/
def csum (cnt : ℤ → ℕ) : ℕ → ℕ
  | 0 => 0
  | q + 1 => csum cnt q + cnt q

/-- The scatter pass of `findNeighborON1`: fill `cellContents` (a flat map
from position to atom index) while re-counting per-cell occupancy. -/
def scatterFill (cellIdx : ℕ → ℤ) (sums : ℤ → ℕ) (N : ℕ) :
    (ℕ → ℕ) × (ℤ → ℕ) :=
  (List.range N).foldl
    (fun acc n =>
      (fun m => if m = sums (cellIdx n) + acc.2 (cellIdx n) then n else acc.1 m,
       fun q => if q = cellIdx n then acc.2 q + 1 else acc.2 q))
    (fun _ => 0, fun _ => 0)

/-- Face thicknesses of the box of `σ` (the `thickness` array). -/
def thicknessOf (S : ℚ → ℚ) (σ : Atom) : ℚ × ℚ × ℚ :=
  getThickness S σ.box

/-- The per-axis cell counts `numCells[0..2]` of `findNeighborON1`. -/
def ncOf (S : ℚ → ℚ) (σ : Atom) : ℤ × ℤ × ℤ :=
  (⌊(thicknessOf S σ).1 * (1 / σ.cutoffNeighbor)⌋,
   ⌊(thicknessOf S σ).2.1 * (1 / σ.cutoffNeighbor)⌋,
   ⌊(thicknessOf S σ).2.2 * (1 / σ.cutoffNeighbor)⌋)

/-- The composite cell index assigned to atom `n` (`findCell(...)[3]`). -/
def cellIdxOf (S : ℚ → ℚ) (σ : Atom) (n : ℕ) : ℤ :=
  (findCell σ.box (thicknessOf S σ) (σ.x n, σ.y n, σ.z n)
    (1 / σ.cutoffNeighbor) (ncOf S σ)).2.2.2

/-- The per-cell counts of the first pass. -/
def cntOf (S : ℚ → ℚ) (σ : Atom) : ℤ → ℕ :=
  cellCounts (cellIdxOf S σ) σ.number

/-- `cellCountSum` read at a (composite) cell index. -/
def sumsOf (S : ℚ → ℚ) (σ : Atom) (q : ℤ) : ℕ :=
  csum (cntOf S σ) q.toNat

/-- The scatter-pass result: `cellContents` and the refilled `cellCount`. -/
def scatterOf (S : ℚ → ℚ) (σ : Atom) : (ℕ → ℕ) × (ℤ → ℕ) :=
  scatterFill (cellIdxOf S σ) (sumsOf S σ) σ.number

/-- The `neighborCell` index scanned for atom `n1` at offsets `(k,j,i)`,
with the six conditional periodic corrections of the source. -/
def scanCellOf (S : ℚ → ℚ) (σ : Atom) (n1 : ℕ) (k j i : ℤ) : ℤ :=
  let nc := ncOf S σ
  let nc3 := nc.1 * nc.2.1 * nc.2.2
  let cell := findCell σ.box (thicknessOf S σ) (σ.x n1, σ.y n1, σ.z n1)
    (1 / σ.cutoffNeighbor) nc
  let a0 := cell.2.2.2 + (k * nc.2.1 + j) * nc.1 + i
  let a1 := if cell.1 + i < 0 then a0 + nc.1 else a0
  let a2 := if cell.1 + i ≥ nc.1 then a1 - nc.1 else a1
  let a3 := if cell.2.1 + j < 0 then a2 + nc.2.1 * nc.1 else a2
  let a4 := if cell.2.1 + j ≥ nc.2.1 then a3 - nc.2.1 * nc.1 else a3
  let a5 := if cell.2.2.1 + k < 0 then a4 + nc3 else a4
  if cell.2.2.1 + k ≥ nc.2.2 then a5 - nc3 else a5

/-- The offset list `-1, 0, 1` of the 3×3×3 cell scan. -/
def offs : List ℤ := [-1, 0, 1]

/-- `findNeighborON1` from the source: cell binning by counting sort, then
for every atom a scan of its 27 (periodically wrapped) neighbor cells,
visiting each stored atom `n2` with `n1 < n2`, with the same acceptance
block as the all-pairs builder. -/
def findNeighborON1 (S : ℚ → ℚ) (σ : Atom) : Except (ℕ × ℕ × NbData) NbData :=
  (List.range σ.number).foldl
    (fun acc n1 =>
      offs.foldl
        (fun acck k =>
          offs.foldl
            (fun accj j =>
              offs.foldl
                (fun acci i =>
                  (List.range ((scatterOf S σ).2 (scanCellOf S σ n1 k j i))).foldl
                    (fun accm m =>
                      accm.bind (fun d =>
                        if n1 < (scatterOf S σ).1
                            (sumsOf S σ (scanCellOf S σ n1 k j i) + m) then
                          if micDistSq σ n1 ((scatterOf S σ).1
                              (sumsOf S σ (scanCellOf S σ n1 k j i) + m))
                              < σ.cutoffNeighbor * σ.cutoffNeighbor then
                            pairStep σ.MN n1 ((scatterOf S σ).1
                              (sumsOf S σ (scanCellOf S σ n1 k j i) + m)) d
                          else Except.ok d
                        else Except.ok d))
                    acci)
                accj)
            acck)
        acc)
    (Except.ok { NN := fun _ => 0, NL := σ.NL, writes := [] })

lemma applyMicOne_neg (t : ℚ) : applyMicOne (-t) = -applyMicOne t := by
  unfold applyMicOne
  split_ifs <;> linarith

lemma applyMic_neg (b : ℕ → ℚ) (X Y Z : ℚ) :
    applyMic b (-X) (-Y) (-Z)
      = (-(applyMic b X Y Z).1, -(applyMic b X Y Z).2.1, -(applyMic b X Y Z).2.2) := by
  unfold applyMic
  dsimp only
  have e1 : b 9 * -X + b 10 * -Y + b 11 * -Z = -(b 9 * X + b 10 * Y + b 11 * Z) := by
    ring
  have e2 : b 12 * -X + b 13 * -Y + b 14 * -Z = -(b 12 * X + b 13 * Y + b 14 * Z) := by
    ring
  have e3 : b 15 * -X + b 16 * -Y + b 17 * -Z = -(b 15 * X + b 16 * Y + b 17 * Z) := by
    ring
  rw [e1, e2, e3, applyMicOne_neg, applyMicOne_neg, applyMicOne_neg]
  simp only [Prod.mk.injEq]
  refine ⟨by ring, by ring, by ring⟩

/-- The squared minimum-image distance is symmetric in the two atoms. -/
lemma micDistSq_symm (σ : Atom) (i j : ℕ) : micDistSq σ i j = micDistSq σ j i := by
  unfold micDistSq
  have h1 : σ.x i - σ.x j = -(σ.x j - σ.x i) := by ring
  have h2 : σ.y i - σ.y j = -(σ.y j - σ.y i) := by ring
  have h3 : σ.z i - σ.z j = -(σ.z j - σ.z i) := by ring
  conv_rhs => rw [h1, h2, h3, applyMic_neg]
  dsimp only
  ring

/-- The candidate-visit sequence of the cell-linked builder, in traversal
order (before the `n1 < n2` guard). -/
def on1Visits (S : ℚ → ℚ) (σ : Atom) : List (ℕ × ℕ) :=
  (List.range σ.number).flatMap
    (fun n1 => offs.flatMap (fun k => offs.flatMap (fun j => offs.flatMap (fun i =>
      (List.range ((scatterOf S σ).2 (scanCellOf S σ n1 k j i))).map
        (fun m => (n1,
          (scatterOf S σ).1 (sumsOf S σ (scanCellOf S σ n1 k j i) + m)))))))

lemma except_bind_ok {ε α : Type} (r : Except ε α) :
    r.bind Except.ok = r := by
  cases r <;> rfl

lemma foldl_guardStep (MN : ℕ) (accept : ℕ → ℕ → Prop) [DecidableRel accept]
    (vs : List (ℕ × ℕ)) (r0 : Except (ℕ × ℕ × NbData) NbData) :
    vs.foldl (fun acc p => acc.bind (fun d =>
        if p.1 < p.2 then
          (if accept p.1 p.2 then pairStep MN p.1 p.2 d else Except.ok d)
        else Except.ok d)) r0
      = (vs.filter (fun p => decide (p.1 < p.2))).foldl (visitStep MN accept) r0 := by
  induction vs generalizing r0 with
  | nil => rfl
  | cons p t ih =>
    by_cases h : p.1 < p.2
    · rw [List.foldl_cons, List.filter_cons_of_pos (by simpa using h),
        List.foldl_cons]
      have he : (fun d =>
          if p.1 < p.2 then
            (if accept p.1 p.2 then pairStep MN p.1 p.2 d else Except.ok d)
          else Except.ok d)
          = fun d => if accept p.1 p.2 then pairStep MN p.1 p.2 d
              else Except.ok d := by
        funext d
        rw [if_pos h]
      rw [he]
      exact ih _
    · rw [List.foldl_cons, List.filter_cons_of_neg (by simpa using h)]
      have he : (fun d =>
          if p.1 < p.2 then
            (if accept p.1 p.2 then pairStep MN p.1 p.2 d else Except.ok d)
          else Except.ok d) = Except.ok := by
        funext d
        rw [if_neg h]
      rw [he, except_bind_ok]
      exact ih _

/-- `findNeighborON1` is the fold of its (guard-filtered) visit sequence. -/
lemma findNeighborON1_eq_processVisits (S : ℚ → ℚ) (σ : Atom) :
    findNeighborON1 S σ = processVisits σ.MN
      (fun a b => micDistSq σ a b < σ.cutoffNeighbor * σ.cutoffNeighbor)
      ((on1Visits S σ).filter (fun p => decide (p.1 < p.2)))
      { NN := fun _ => 0, NL := σ.NL, writes := [] } := by
  unfold processVisits
  rw [← foldl_guardStep]
  unfold findNeighborON1 on1Visits
  rw [foldl_flatMap]
  congr 1
  funext acc n1
  rw [foldl_flatMap]
  congr 1
  funext acck k
  rw [foldl_flatMap]
  congr 1
  funext accj j
  rw [foldl_flatMap]
  congr 1
  funext acci i
  rw [List.foldl_map]

lemma partnersOf_length_le (accept : ℕ → ℕ → Prop) [DecidableRel accept]
    (vs : List (ℕ × ℕ)) (i : ℕ) :
    (partnersOf accept vs i).length ≤ vs.length :=
  List.length_filterMap_le _ _

/-- The set of true neighbors of atom `i`: all other atoms at squared
minimum-image distance strictly below the neighbor cutoff squared. -/
def neighborsWithin (σ : Atom) (i : ℕ) : List ℕ :=
  (List.range σ.number).filter
    (fun j => decide (j ≠ i) &&
      decide (micDistSq σ i j < σ.cutoffNeighbor * σ.cutoffNeighbor))

lemma mem_neighborsWithin {σ : Atom} {i j : ℕ} :
    j ∈ neighborsWithin σ i ↔
      j < σ.number ∧ j ≠ i ∧
        micDistSq σ i j < σ.cutoffNeighbor * σ.cutoffNeighbor := by
  unfold neighborsWithin
  simp [List.mem_filter, and_assoc]

lemma neighborsWithin_nodup (σ : Atom) (i : ℕ) : (neighborsWithin σ i).Nodup :=
  List.Nodup.filter _ (List.nodup_range σ.number)

/-- Membership in an atom's partner list over the lexicographic visits. -/
lemma mem_partners_lex {σ : Atom} {i j : ℕ} (hiN : i < σ.number) :
    j ∈ partnersOf
        (fun a b => micDistSq σ a b < σ.cutoffNeighbor * σ.cutoffNeighbor)
        (lexVisits σ.number) i
      ↔ j < σ.number ∧ j ≠ i ∧
          micDistSq σ i j < σ.cutoffNeighbor * σ.cutoffNeighbor := by
  rw [mem_partnersOf_wf lexVisits_wf]
  simp only [mem_lexVisits]
  constructor
  · rintro (⟨hacc, hlt, hN⟩ | ⟨hacc, hlt, hN⟩)
    · exact ⟨hN, by omega, hacc⟩
    · exact ⟨by omega, by omega, (micDistSq_symm σ i j) ▸ hacc⟩
  · rintro ⟨hjN, hne, hacc⟩
    rcases Nat.lt_or_ge i j with hij | hij
    · exact Or.inl ⟨hacc, hij, hjN⟩
    · have hji : j < i := by omega
      exact Or.inr ⟨(micDistSq_symm σ i j) ▸ hacc, hji, hiN⟩

/-- The partner list over the lexicographic visits is a permutation of the
true neighbor set. -/
lemma partners_lex_perm (σ : Atom) (i : ℕ) (hiN : i < σ.number) :
    (partnersOf
      (fun a b => micDistSq σ a b < σ.cutoffNeighbor * σ.cutoffNeighbor)
      (lexVisits σ.number) i).Perm (neighborsWithin σ i) := by
  rw [List.perm_ext_iff_of_nodup
    (partnersOf_nodup lexVisits_wf (lexVisits_nodup σ.number) i)
    (neighborsWithin_nodup σ i)]
  intro j
  rw [mem_partners_lex hiN, mem_neighborsWithin]

/-- The number of accepted insertions the all-pairs builder performs for
atom `i`. -/
def on2Degree (σ : Atom) (i : ℕ) : ℕ :=
  (partnersOf
    (fun a b => micDistSq σ a b < σ.cutoffNeighbor * σ.cutoffNeighbor)
    (lexVisits σ.number) i).length

/-- The number of accepted insertions the cell-linked builder performs for
atom `i` (cell-scan duplicates counted with multiplicity). -/
def on1Degree (S : ℚ → ℚ) (σ : Atom) (i : ℕ) : ℕ :=
  (partnersOf
    (fun a b => micDistSq σ a b < σ.cutoffNeighbor * σ.cutoffNeighbor)
    ((on1Visits S σ).filter (fun p => decide (p.1 < p.2))) i).length

/-- For an atom of the system, the all-pairs builder's accepted-insertion
count is exactly the size of its true neighbor set. -/
lemma on2Degree_eq_card (σ : Atom) (i : ℕ) (hiN : i < σ.number) :
    on2Degree σ i = (neighborsWithin σ i).length :=
  (partners_lex_perm σ i hiN).length_eq

lemma map_range_getD (l : List ℕ) :
    (List.range l.length).map (fun k => l.getD k 0) = l := by
  apply List.ext_getElem
  · simp
  · intro n h1 h2
    simp only [List.getElem_map, List.getElem_range]
    exact List.getD_eq_getElem l 0 h2

lemma on1Visits_wf (S : ℚ → ℚ) (σ : Atom) :
    ∀ p ∈ (on1Visits S σ).filter (fun p => decide (p.1 < p.2)), p.1 < p.2 :=
  fun p hp => by simpa using (List.mem_filter.mp hp).2

/-- Claim C7: on every build, each builder aborts with the fatal error —
reporting an offending atom index and the cap `MN` — whenever some atom's
accepted neighbor count would exceed `MN`; when no count exceeds `MN` the
run completes with every accepted neighbor recorded (count and list in
full — never a silent truncation at `MN`).  For the all-pairs builder the
accepted count of an atom of the system is exactly the size of its true
neighbor set. -/
theorem c7_capacity_overflow_fatal (σ : Atom) (S : ℚ → ℚ) :
    ((∀ i, on2Degree σ i ≤ σ.MN) →
      nbOk (findNeighborON2 σ) = true ∧
      (∀ i, nbNN (findNeighborON2 σ) i = some (on2Degree σ i)) ∧
      (∀ i, nbList σ.MN (findNeighborON2 σ) i = some (partnersOf
        (fun a b => micDistSq σ a b < σ.cutoffNeighbor * σ.cutoffNeighbor)
        (lexVisits σ.number) i))) ∧
    ((∃ i, σ.MN < on2Degree σ i) →
      ∃ e, errAtom (findNeighborON2 σ) = some e ∧
        errCap (findNeighborON2 σ) = some σ.MN ∧ σ.MN < on2Degree σ e) ∧
    (∀ i, i < σ.number → on2Degree σ i = (neighborsWithin σ i).length) ∧
    ((∀ i, on1Degree S σ i ≤ σ.MN) →
      nbOk (findNeighborON1 S σ) = true ∧
      (∀ i, nbNN (findNeighborON1 S σ) i = some (on1Degree S σ i))) ∧
    ((∃ i, σ.MN < on1Degree S σ i) →
      ∃ e, errAtom (findNeighborON1 S σ) = some e ∧
        errCap (findNeighborON1 S σ) = some σ.MN ∧ σ.MN < on1Degree S σ e) := by
  refine ⟨?_, ?_, ?_, ?_, ?_⟩
  · intro hcap
    obtain ⟨dF, hrun, hNN, hNL⟩ := processVisits_ok σ.MN
      (fun a b => micDistSq σ a b < σ.cutoffNeighbor * σ.cutoffNeighbor)
      (lexVisits σ.number) { NN := fun _ => 0, NL := σ.NL, writes := [] }
      (fun _ => rfl) lexVisits_wf hcap
    rw [findNeighborON2_eq_processVisits, hrun]
    refine ⟨rfl, fun i => ?_, fun i => ?_⟩
    · show some (dF.NN i) = _
      rw [hNN i]
      rfl
    · show some (nbrList σ.MN dF i) = _
      congr 1
      unfold nbrList
      rw [hNN i]
      rw [show (fun k => dF.NL (i * σ.MN + k))
          = fun k => if k < (partnersOf
              (fun a b => micDistSq σ a b < σ.cutoffNeighbor * σ.cutoffNeighbor)
              (lexVisits σ.number) i).length
            then (partnersOf
              (fun a b => micDistSq σ a b < σ.cutoffNeighbor * σ.cutoffNeighbor)
              (lexVisits σ.number) i).getD k 0
            else dF.NL (i * σ.MN + k) from ?_]
      · rw [List.map_congr_left]
        · exact map_range_getD _
        · intro k hk
          rw [List.mem_range] at hk
          rw [if_pos hk]
      · funext k
        by_cases hk : k < (partnersOf
            (fun a b => micDistSq σ a b < σ.cutoffNeighbor * σ.cutoffNeighbor)
            (lexVisits σ.number) i).length
        · rw [if_pos hk, hNL i k hk]
        · rw [if_neg hk]
  · rintro ⟨i0, hi0⟩
    obtain ⟨e, dE, hrun, hlen, hmem⟩ := processVisits_error σ.MN
      (fun a b => micDistSq σ a b < σ.cutoffNeighbor * σ.cutoffNeighbor)
      (lexVisits σ.number) { NN := fun _ => 0, NL := σ.NL, writes := [] }
      (fun _ => rfl) lexVisits_wf ⟨i0, hi0⟩
    refine ⟨e, ?_, ?_, hlen⟩
    · rw [findNeighborON2_eq_processVisits, hrun]
      rfl
    · rw [findNeighborON2_eq_processVisits, hrun]
      rfl
  · exact fun i hiN => on2Degree_eq_card σ i hiN
  · intro hcap
    obtain ⟨dF, hrun, hNN, hNL⟩ := processVisits_ok σ.MN
      (fun a b => micDistSq σ a b < σ.cutoffNeighbor * σ.cutoffNeighbor)
      ((on1Visits S σ).filter (fun p => decide (p.1 < p.2)))
      { NN := fun _ => 0, NL := σ.NL, writes := [] }
      (fun _ => rfl) (on1Visits_wf S σ) hcap
    rw [findNeighborON1_eq_processVisits, hrun]
    refine ⟨rfl, fun i => ?_⟩
    show some (dF.NN i) = _
    rw [hNN i]
    rfl
  · rintro ⟨i0, hi0⟩
    obtain ⟨e, dE, hrun, hlen, hmem⟩ := processVisits_error σ.MN
      (fun a b => micDistSq σ a b < σ.cutoffNeighbor * σ.cutoffNeighbor)
      ((on1Visits S σ).filter (fun p => decide (p.1 < p.2)))
      { NN := fun _ => 0, NL := σ.NL, writes := [] }
      (fun _ => rfl) (on1Visits_wf S σ) ⟨i0, hi0⟩
    refine ⟨e, ?_, ?_, hlen⟩
    · rw [findNeighborON1_eq_processVisits, hrun]
      rfl
    · rw [findNeighborON1_eq_processVisits, hrun]
      rfl

/-- Claim C9: in both builders, the store of an accepted neighbor into
`NL[i * MN + NN[i]]` happens before `NN[i]` is compared against `MN`; so
whenever a run aborts with the fatal error naming atom `e`, a store to
flat index `e * MN + MN` has already been performed — an index outside
atom `e`'s stride region `[e * MN, e * MN + MN)`, equal to `number * MN`
(one past the end of the `NL` allocation) when `e` is the last atom. -/
theorem c9_store_before_capacity_check (σ : Atom) (S : ℚ → ℚ) :
    (∀ e, errAtom (findNeighborON2 σ) = some e →
      (e * σ.MN + σ.MN) ∈ errWrites (findNeighborON2 σ) ∧
      errCap (findNeighborON2 σ) = some σ.MN ∧
      (∀ k, k < σ.MN → e * σ.MN + σ.MN ≠ e * σ.MN + k) ∧
      (e + 1 = σ.number → e * σ.MN + σ.MN = σ.number * σ.MN)) ∧
    (∀ e, errAtom (findNeighborON1 S σ) = some e →
      (e * σ.MN + σ.MN) ∈ errWrites (findNeighborON1 S σ) ∧
      errCap (findNeighborON1 S σ) = some σ.MN ∧
      (∀ k, k < σ.MN → e * σ.MN + σ.MN ≠ e * σ.MN + k) ∧
      (e + 1 = σ.number → e * σ.MN + σ.MN = σ.number * σ.MN)) := by
  constructor
  · intro e he
    rw [findNeighborON2_eq_processVisits] at he
    by_cases hcap : ∀ i, (partnersOf
        (fun a b => micDistSq σ a b < σ.cutoffNeighbor * σ.cutoffNeighbor)
        (lexVisits σ.number) i).length ≤ σ.MN
    · obtain ⟨dF, hrun, -, -⟩ := processVisits_ok σ.MN
        (fun a b => micDistSq σ a b < σ.cutoffNeighbor * σ.cutoffNeighbor)
        (lexVisits σ.number) { NN := fun _ => 0, NL := σ.NL, writes := [] }
        (fun _ => rfl) lexVisits_wf hcap
      rw [hrun] at he
      exact Option.noConfusion he
    · push_neg at hcap
      obtain ⟨e2, dE, hrun, hlen, hmem⟩ := processVisits_error σ.MN
        (fun a b => micDistSq σ a b < σ.cutoffNeighbor * σ.cutoffNeighbor)
        (lexVisits σ.number) { NN := fun _ => 0, NL := σ.NL, writes := [] }
        (fun _ => rfl) lexVisits_wf hcap
      rw [hrun] at he
      have he2 : e2 = e := Option.some.inj he
      subst he2
      rw [findNeighborON2_eq_processVisits, hrun]
      refine ⟨hmem, rfl, fun k hk => by omega, fun hlast => ?_⟩
      rw [← hlast, Nat.succ_mul]
  · intro e he
    rw [findNeighborON1_eq_processVisits] at he
    by_cases hcap : ∀ i, (partnersOf
        (fun a b => micDistSq σ a b < σ.cutoffNeighbor * σ.cutoffNeighbor)
        ((on1Visits S σ).filter (fun p => decide (p.1 < p.2))) i).length ≤ σ.MN
    · obtain ⟨dF, hrun, -, -⟩ := processVisits_ok σ.MN
        (fun a b => micDistSq σ a b < σ.cutoffNeighbor * σ.cutoffNeighbor)
        ((on1Visits S σ).filter (fun p => decide (p.1 < p.2)))
        { NN := fun _ => 0, NL := σ.NL, writes := [] }
        (fun _ => rfl) (on1Visits_wf S σ) hcap
      rw [hrun] at he
      exact Option.noConfusion he
    · push_neg at hcap
      obtain ⟨e2, dE, hrun, hlen, hmem⟩ := processVisits_error σ.MN
        (fun a b => micDistSq σ a b < σ.cutoffNeighbor * σ.cutoffNeighbor)
        ((on1Visits S σ).filter (fun p => decide (p.1 < p.2)))
        { NN := fun _ => 0, NL := σ.NL, writes := [] }
        (fun _ => rfl) (on1Visits_wf S σ) hcap
      rw [hrun] at he
      have he2 : e2 = e := Option.some.inj he
      subst he2
      rw [findNeighborON1_eq_processVisits, hrun]
      refine ⟨hmem, rfl, fun k hk => by omega, fun hlast => ?_⟩
      rw [← hlast, Nat.succ_mul]

/-- Three atoms in a row inside a large cubic box, with the per-atom
neighbor cap deliberately lowered to 1 so that the middle of the build
overflows it (the engineered overflow scenario of the spec). -/
def ovCfg : Atom :=
  { number := 3
    MN := 1
    box := boxCube 50
    NN := fun _ => 0
    NL := fun _ => 0
    mass := fun _ => 40
    x0 := fun _ => 0, y0 := fun _ => 0, z0 := fun _ => 0
    x := fun n => if n = 1 then 1 else if n = 2 then 2 else 0
    y := fun _ => 0, z := fun _ => 0
    vx := fun _ => 0, vy := fun _ => 0, vz := fun _ => 0
    fx := fun _ => 0, fy := fun _ => 0, fz := fun _ => 0
    pe := fun _ => 0 }

/-- Witness for C7: on the engineered overflow configuration the all-pairs
builder signals the fatal error, reporting an offending atom and the cap. -/
theorem c7_capacity_overflow_fatal_witness :
    ∃ e, errAtom (findNeighborON2 ovCfg) = some e ∧
      errCap (findNeighborON2 ovCfg) = some ovCfg.MN ∧
      ovCfg.MN < on2Degree ovCfg e :=
  (c7_capacity_overflow_fatal ovCfg (fun q => q)).2.1
    ⟨0, by
      rw [on2Degree_eq_card ovCfg 0 (by norm_num [ovCfg])]
      norm_num [neighborsWithin, List.range_succ, micDistSq,
        applyMic, applyMicOne, boxCube, ovCfg]⟩

/-- Witness for C9: on the engineered overflow configuration the error
names atom 0 and the flat slot `0 * MN + MN` was stored to before the
check fired. -/
theorem c9_store_before_capacity_check_witness :
    (0 * ovCfg.MN + ovCfg.MN) ∈ errWrites (findNeighborON2 ovCfg) ∧
    errCap (findNeighborON2 ovCfg) = some ovCfg.MN ∧
    (∀ k, k < ovCfg.MN → 0 * ovCfg.MN + ovCfg.MN ≠ 0 * ovCfg.MN + k) ∧
    (0 + 1 = ovCfg.number → 0 * ovCfg.MN + ovCfg.MN = ovCfg.number * ovCfg.MN) :=
  (c9_store_before_capacity_check ovCfg (fun q => q)).1 0
    (by
      norm_num [findNeighborON2, errAtom, micDistSq, applyMic, applyMicOne,
        boxCube, ovCfg, pairStep, insertOne, Except.bind, List.range_succ])

/-- Force/energy/virial/heat-flux accumulator state of
`find_force_tersoff` (`prop` holds the seven global accumulators). -/
structure TState where
  fx : ℕ → ℚ
  fy : ℕ → ℚ
  fz : ℕ → ℚ
  prop : ℕ → ℚ

/-- The per-pair body of `find_force_tersoff` (source lines computing
`f12`, `f21`, `p12`, `p21` for the bond in slot `i1` of atom `n1`'s list):
radial two-body parts from both atoms' directed bond orders (the reverse
bond order located by the linear back-reference search of `n2`'s list),
plus the two three-body correction loops. -/
def tersoffPair (M : MathFns) (box : ℕ → ℚ) (NN : ℕ → ℕ) (NL : ℕ → ℕ)
    (MN : ℕ) (b bp x y z : ℕ → ℚ) (n1 i1 : ℕ) :
    (ℚ × ℚ × ℚ) × (ℚ × ℚ × ℚ) × ℚ × ℚ :=
  let n2 := NL (n1 * MN + i1)
  let dv := micVec box x y z n1 n2
  let d12 := M.sqrtQ (micVecSq box x y z n1 n2)
  let d12inv := 1 / d12
  let fcp := find_fc_and_fcp M d12
  let fap := find_fa_and_fap M d12
  let frp := find_fr_and_frp M d12
  let b12 := b (n1 * MN + i1)
  let factor1 := -b12 * fap.1 + frp.1
  let factor2 := -b12 * fap.2 + frp.2
  let factor3 := (fcp.2 * factor1 + fcp.1 * factor2) / d12
  let f12a := (dv.1 * factor3 * 0.5, dv.2.1 * factor3 * 0.5,
    dv.2.2 * factor3 * 0.5)
  let p12 := factor1 * fcp.1
  let offset := ((List.range (NN n2)).find?
    (fun k => decide (NL (n2 * MN + k) = n1))).getD 0
  let b21 := b (n2 * MN + offset)
  let factor1b := -b21 * fap.1 + frp.1
  let factor2b := -b21 * fap.2 + frp.2
  let factor3b := (fcp.2 * factor1b + fcp.1 * factor2b) / d12
  let f21a := (-dv.1 * factor3b * 0.5, -dv.2.1 * factor3b * 0.5,
    -dv.2.2 * factor3b * 0.5)
  let p21 := factor1b * fcp.1
  let bp12 := bp (n1 * MN + i1)
  let f12 := (List.range (NN n1)).foldl
    (fun acc i2 =>
      let n3 := NL (n1 * MN + i2)
      if n3 = n2 then acc
      else
        let dv13 := micVec box x y z n1 n3
        let d13 := M.sqrtQ (micVecSq box x y z n1 n3)
        let fc13 := find_fc M d13
        let fa13 := find_fa M d13
        let bp13 := bp (n1 * MN + i2)
        let cos123 := (dv.1 * dv13.1 + dv.2.1 * dv13.2.1 + dv.2.2 * dv13.2.2)
          / (d12 * d13)
        let g := find_g_and_gp cos123
        let cos_x := dv13.1 / (d12 * d13) - dv.1 * cos123 / (d12 * d12)
        let cos_y := dv13.2.1 / (d12 * d13) - dv.2.1 * cos123 / (d12 * d12)
        let cos_z := dv13.2.2 / (d12 * d13) - dv.2.2 * cos123 / (d12 * d12)
        let factor123a :=
          (-bp12 * fcp.1 * fap.1 * fc13 - bp13 * fc13 * fa13 * fcp.1) * g.2
        let factor123b := -bp13 * fc13 * fa13 * fcp.2 * g.1 * d12inv
        (acc.1 + (dv.1 * factor123b + factor123a * cos_x) * 0.5,
         acc.2.1 + (dv.2.1 * factor123b + factor123a * cos_y) * 0.5,
         acc.2.2 + (dv.2.2 * factor123b + factor123a * cos_z) * 0.5))
    f12a
  let bp21 := bp (n2 * MN + offset)
  let f21 := (List.range (NN n2)).foldl
    (fun acc i2 =>
      let n3 := NL (n2 * MN + i2)
      if n3 = n1 then acc
      else
        let dv23 := micVec box x y z n2 n3
        let d23 := M.sqrtQ (micVecSq box x y z n2 n3)
        let fc23 := find_fc M d23
        let fa23 := find_fa M d23
        let bp13 := bp (n2 * MN + i2)
        let cos213 := -(dv.1 * dv23.1 + dv.2.1 * dv23.2.1 + dv.2.2 * dv23.2.2)
          / (d12 * d23)
        let g := find_g_and_gp cos213
        let cos_x := dv23.1 / (d12 * d23) + dv.1 * cos213 / (d12 * d12)
        let cos_y := dv23.2.1 / (d12 * d23) + dv.2.1 * cos213 / (d12 * d12)
        let cos_z := dv23.2.2 / (d12 * d23) + dv.2.2 * cos213 / (d12 * d12)
        let factor213a :=
          (-bp21 * fcp.1 * fap.1 * fc23 - bp13 * fc23 * fa23 * fcp.1) * g.2
        let factor213b := -bp13 * fc23 * fa23 * fcp.2 * g.1 * d12inv
        (acc.1 + (-dv.1 * factor213b + factor213a * cos_x) * 0.5,
         acc.2.1 + (-dv.2.1 * factor213b + factor213a * cos_y) * 0.5,
         acc.2.2 + (-dv.2.2 * factor213b + factor213a * cos_z) * 0.5))
    f21a
  (f12, f21, p12, p21)

/-- `f12` (the derivative of atom `n1`'s site energy for the bond). -/
def tersoffF12 (M : MathFns) (box : ℕ → ℚ) (NN : ℕ → ℕ) (NL : ℕ → ℕ)
    (MN : ℕ) (b bp x y z : ℕ → ℚ) (n1 i1 : ℕ) : ℚ × ℚ × ℚ :=
  (tersoffPair M box NN NL MN b bp x y z n1 i1).1

/-- `f21` (the derivative of atom `n2`'s site energy for the bond). -/
def tersoffF21 (M : MathFns) (box : ℕ → ℚ) (NN : ℕ → ℕ) (NL : ℕ → ℕ)
    (MN : ℕ) (b bp x y z : ℕ → ℚ) (n1 i1 : ℕ) : ℚ × ℚ × ℚ :=
  (tersoffPair M box NN NL MN b bp x y z n1 i1).2.1

/-- `p12` (pairwise energy attributed from `n1`'s perspective). -/
def tersoffP12 (M : MathFns) (box : ℕ → ℚ) (NN : ℕ → ℕ) (NL : ℕ → ℕ)
    (MN : ℕ) (b bp x y z : ℕ → ℚ) (n1 i1 : ℕ) : ℚ :=
  (tersoffPair M box NN NL MN b bp x y z n1 i1).2.2.1

/-- `p21` (pairwise energy attributed from `n2`'s perspective). -/
def tersoffP21 (M : MathFns) (box : ℕ → ℚ) (NN : ℕ → ℕ) (NL : ℕ → ℕ)
    (MN : ℕ) (b bp x y z : ℕ → ℚ) (n1 i1 : ℕ) : ℚ :=
  (tersoffPair M box NN NL MN b bp x y z n1 i1).2.2.2

/-- The net pair force `(fx12, fy12, fz12) = f12 - f21` of the source. -/
def tersoffNet (M : MathFns) (box : ℕ → ℚ) (NN : ℕ → ℕ) (NL : ℕ → ℕ)
    (MN : ℕ) (b bp x y z : ℕ → ℚ) (n1 i1 : ℕ) : ℚ × ℚ × ℚ :=
  ((tersoffF12 M box NN NL MN b bp x y z n1 i1).1
     - (tersoffF21 M box NN NL MN b bp x y z n1 i1).1,
   (tersoffF12 M box NN NL MN b bp x y z n1 i1).2.1
     - (tersoffF21 M box NN NL MN b bp x y z n1 i1).2.1,
   (tersoffF12 M box NN NL MN b bp x y z n1 i1).2.2
     - (tersoffF21 M box NN NL MN b bp x y z n1 i1).2.2)

/-- The state update performed by `find_force_tersoff` for an accepted
visit (the statements after the `n2 < n1` guard): forces via Newton's
third law, then the seven accumulators in source order. -/
def applyTersoffVisit (M : MathFns) (box : ℕ → ℚ) (NN : ℕ → ℕ) (NL : ℕ → ℕ)
    (MN : ℕ) (b bp x y z vx vy vz : ℕ → ℚ) (st : TState) (n1 i1 : ℕ) :
    TState :=
  let n2 := NL (n1 * MN + i1)
  let dv := micVec box x y z n1 n2
  let w := tersoffNet M box NN NL MN b bp x y z n1 i1
  let f12 := tersoffF12 M box NN NL MN b bp x y z n1 i1
  let f21 := tersoffF21 M box NN NL MN b bp x y z n1 i1
  let dot2 := f12.1 * vx n2 + f12.2.1 * vy n2 + f12.2.2 * vz n2
  let dot1 := f21.1 * vx n1 + f21.2.1 * vy n1 + f21.2.2 * vz n1
  { fx := addAt (addAt st.fx n1 w.1) n2 (-w.1)
    fy := addAt (addAt st.fy n1 w.2.1) n2 (-w.2.1)
    fz := addAt (addAt st.fz n1 w.2.2) n2 (-w.2.2)
    prop := addAt (addAt (addAt (addAt (addAt (addAt (addAt st.prop
      0 ((tersoffP12 M box NN NL MN b bp x y z n1 i1
          + tersoffP21 M box NN NL MN b bp x y z n1 i1) * 0.5))
      1 (-(w.1 * dv.1))) 2 (-(w.2.1 * dv.2.1))) 3 (-(w.2.2 * dv.2.2)))
      4 (-((dot2 - dot1) * dv.1))) 5 (-((dot2 - dot1) * dv.2.1)))
      6 (-((dot2 - dot1) * dv.2.2)) }

/-- `find_force_tersoff` from the source: zero the seven accumulators and
the force arrays, then for every neighbor-list slot skip when `n2 < n1`
(Newton's-third-law guard) and otherwise apply the per-bond update. -/
def find_force_tersoff (M : MathFns) (box : ℕ → ℚ) (N : ℕ) (NN : ℕ → ℕ)
    (NL : ℕ → ℕ) (MN : ℕ) (b bp x y z vx vy vz fx0 fy0 fz0 prop0 : ℕ → ℚ) :
    TState :=
  (List.range N).foldl
    (fun st n1 =>
      (List.range (NN n1)).foldl
        (fun st2 i1 =>
          if NL (n1 * MN + i1) < n1 then st2
          else applyTersoffVisit M box NN NL MN b bp x y z vx vy vz st2 n1 i1)
        st)
    { fx := fun n => if n < N then 0 else fx0 n
      fy := fun n => if n < N then 0 else fy0 n
      fz := fun n => if n < N then 0 else fz0 n
      prop := fun n => if n < 7 then 0 else prop0 n }

/-- The neighbor list of atom `a` as stored in the flat arrays. -/
def slotList (NN NL : ℕ → ℕ) (MN a : ℕ) : List ℕ :=
  (List.range (NN a)).map (fun k => NL (a * MN + k))

/-- The neighbor-list slots `find_force_tersoff` actually processes, in
traversal order: slot `i1` of atom `n1` survives exactly the `n2 < n1`
guard (with no self entries, exactly when `n1 < n2`). -/
def tersoffVisits (N : ℕ) (NN NL : ℕ → ℕ) (MN : ℕ) : List (ℕ × ℕ) :=
  (List.range N).flatMap (fun n1 =>
    (List.range (NN n1)).filterMap (fun i1 =>
      if n1 < NL (n1 * MN + i1) then some (n1, i1) else none))

lemma foldl_skip_neg {α β : Type} (p : α → Bool) (g : β → α → β) (l : List α)
    (init : β) :
    l.foldl (fun st a => if p a then st else g st a) init
      = (l.filter (fun a => !p a)).foldl g init := by
  induction l generalizing init with
  | nil => rfl
  | cons a t ih =>
    by_cases h : p a = true
    · rw [List.foldl_cons, List.filter_cons_of_neg (by simp [h]), if_pos h]
      exact ih _
    · rw [List.foldl_cons, List.filter_cons_of_pos (by simp [h]),
        List.foldl_cons, if_neg h]
      exact ih _

lemma filter_map_eq_filterMap {α β : Type} (q : β → Bool) (f : α → β)
    (l : List α) :
    (l.map f).filter q = l.filterMap (fun a => if q (f a) then some (f a) else none) := by
  induction l with
  | nil => rfl
  | cons a t ih =>
    by_cases h : q (f a) = true
    · rw [List.map_cons, List.filter_cons_of_pos h, List.filterMap_cons, if_pos h]
      rw [ih]
    · rw [List.map_cons, List.filter_cons_of_neg (by simp [h]),
        List.filterMap_cons, if_neg h]
      rw [ih]

lemma filter_flatMap {α β : Type} (f : α → List β) (q : β → Bool) (l : List α) :
    (l.flatMap f).filter q = l.flatMap (fun a => (f a).filter q) := by
  induction l with
  | nil => rfl
  | cons a t ih =>
    rw [List.flatMap_cons, List.filter_append, ih, List.flatMap_cons]

lemma flatMap_congr_mem {α β : Type} {l : List α} {f g : α → List β}
    (h : ∀ a ∈ l, f a = g a) : l.flatMap f = l.flatMap g := by
  induction l with
  | nil => rfl
  | cons a t ih =>
    rw [List.flatMap_cons, List.flatMap_cons, h a (by simp),
      ih (fun a ha => h a (by simp [ha]))]

/-- With no self entries, `find_force_tersoff` is the fold of its accepted
visit sequence over the zeroed initial state. -/
lemma find_force_tersoff_eq_visits (M : MathFns) (box : ℕ → ℚ) (N : ℕ)
    (NN NL : ℕ → ℕ) (MN : ℕ) (b bp x y z vx vy vz fx0 fy0 fz0 prop0 : ℕ → ℚ)
    (Hnoself : ∀ n1, n1 < N → ∀ i1, i1 < NN n1 → NL (n1 * MN + i1) ≠ n1) :
    find_force_tersoff M box N NN NL MN b bp x y z vx vy vz fx0 fy0 fz0 prop0
      = (tersoffVisits N NN NL MN).foldl
          (fun st v => applyTersoffVisit M box NN NL MN b bp x y z vx vy vz
            st v.1 v.2)
          { fx := fun n => if n < N then 0 else fx0 n
            fy := fun n => if n < N then 0 else fy0 n
            fz := fun n => if n < N then 0 else fz0 n
            prop := fun n => if n < 7 then 0 else prop0 n } := by
  unfold find_force_tersoff
  set st0 : TState :=
    { fx := fun n => if n < N then 0 else fx0 n
      fy := fun n => if n < N then 0 else fy0 n
      fz := fun n => if n < N then 0 else fz0 n
      prop := fun n => if n < 7 then 0 else prop0 n }
  have h1 : (List.range N).foldl
      (fun st n1 =>
        (List.range (NN n1)).foldl
          (fun st2 i1 =>
            if NL (n1 * MN + i1) < n1 then st2
            else applyTersoffVisit M box NN NL MN b bp x y z vx vy vz st2 n1 i1)
          st)
      st0
      = ((List.range N).flatMap (fun n1 =>
          (List.range (NN n1)).map (fun i1 => (n1, i1)))).foldl
          (fun st v =>
            if NL (v.1 * MN + v.2) < v.1 then st
            else applyTersoffVisit M box NN NL MN b bp x y z vx vy vz st v.1 v.2)
          st0 := by
    rw [foldl_flatMap]
    congr 1
    funext st n1
    rw [List.foldl_map]
  rw [h1]
  have h2 : (fun (st : TState) (v : ℕ × ℕ) =>
      if NL (v.1 * MN + v.2) < v.1 then st
      else applyTersoffVisit M box NN NL MN b bp x y z vx vy vz st v.1 v.2)
      = fun st v =>
        if (fun w : ℕ × ℕ => decide (NL (w.1 * MN + w.2) < w.1)) v = true then st
        else (fun (st2 : TState) (w : ℕ × ℕ) =>
          applyTersoffVisit M box NN NL MN b bp x y z vx vy vz st2 w.1 w.2) st v := by
    funext st v
    simp
  rw [h2, foldl_skip_neg
    (fun w : ℕ × ℕ => decide (NL (w.1 * MN + w.2) < w.1))
    (fun (st2 : TState) (w : ℕ × ℕ) =>
      applyTersoffVisit M box NN NL MN b bp x y z vx vy vz st2 w.1 w.2)]
  congr 1
  rw [filter_flatMap]
  unfold tersoffVisits
  apply flatMap_congr_mem
  intro n1 hn1
  rw [List.mem_range] at hn1
  rw [filter_map_eq_filterMap]
  apply List.filterMap_congr
  intro i1 hi1
  rw [List.mem_range] at hi1
  have hne := Hnoself n1 hn1 i1 hi1
  by_cases hlt : n1 < NL (n1 * MN + i1)
  · rw [if_pos, if_pos hlt]
    simp only [Bool.not_eq_eq_eq_not, Bool.not_true, decide_eq_false_iff_not]
    omega
  · rw [if_neg, if_neg hlt]
    simp only [Bool.not_eq_eq_eq_not, Bool.not_true, decide_eq_false_iff_not]
    omega

lemma addAt2_eval (f : ℕ → ℚ) (a c : ℕ) (v : ℚ) (hac : a ≠ c) (n : ℕ) :
    addAt (addAt f a v) c (-v) n
      = f n + ((if n = a then v else 0) - (if n = c then v else 0)) := by
  unfold addAt
  by_cases h1 : n = a <;> by_cases h2 : n = c
  · exfalso; omega
  · subst h1
    rw [if_neg h2, if_pos rfl, if_pos rfl, if_neg (by omega)]
    ring
  · subst h2
    rw [if_pos rfl, if_neg (by omega), if_neg h1, if_pos rfl]
    ring
  · rw [if_neg h2, if_neg h1, if_neg h1, if_neg h2]
    ring

lemma applyTersoffVisit_prop0 (M : MathFns) (box : ℕ → ℚ) (NN NL : ℕ → ℕ)
    (MN : ℕ) (b bp x y z vx vy vz : ℕ → ℚ) (st : TState) (n1 i1 : ℕ) :
    (applyTersoffVisit M box NN NL MN b bp x y z vx vy vz st n1 i1).prop 0
      = st.prop 0
        + (tersoffP12 M box NN NL MN b bp x y z n1 i1
           + tersoffP21 M box NN NL MN b bp x y z n1 i1) * 0.5 := by
  simp [applyTersoffVisit, addAt]

lemma applyTersoffVisit_fx (M : MathFns) (box : ℕ → ℚ) (NN NL : ℕ → ℕ)
    (MN : ℕ) (b bp x y z vx vy vz : ℕ → ℚ) (st : TState) (n1 i1 : ℕ)
    (hne : n1 ≠ NL (n1 * MN + i1)) (n : ℕ) :
    (applyTersoffVisit M box NN NL MN b bp x y z vx vy vz st n1 i1).fx n
      = st.fx n
        + ((if n = n1 then (tersoffNet M box NN NL MN b bp x y z n1 i1).1 else 0)
          - (if n = NL (n1 * MN + i1)
              then (tersoffNet M box NN NL MN b bp x y z n1 i1).1 else 0)) := by
  unfold applyTersoffVisit
  dsimp only
  exact addAt2_eval st.fx n1 (NL (n1 * MN + i1)) _ hne n

lemma applyTersoffVisit_fy (M : MathFns) (box : ℕ → ℚ) (NN NL : ℕ → ℕ)
    (MN : ℕ) (b bp x y z vx vy vz : ℕ → ℚ) (st : TState) (n1 i1 : ℕ)
    (hne : n1 ≠ NL (n1 * MN + i1)) (n : ℕ) :
    (applyTersoffVisit M box NN NL MN b bp x y z vx vy vz st n1 i1).fy n
      = st.fy n
        + ((if n = n1 then (tersoffNet M box NN NL MN b bp x y z n1 i1).2.1 else 0)
          - (if n = NL (n1 * MN + i1)
              then (tersoffNet M box NN NL MN b bp x y z n1 i1).2.1 else 0)) := by
  unfold applyTersoffVisit
  dsimp only
  exact addAt2_eval st.fy n1 (NL (n1 * MN + i1)) _ hne n

lemma applyTersoffVisit_fz (M : MathFns) (box : ℕ → ℚ) (NN NL : ℕ → ℕ)
    (MN : ℕ) (b bp x y z vx vy vz : ℕ → ℚ) (st : TState) (n1 i1 : ℕ)
    (hne : n1 ≠ NL (n1 * MN + i1)) (n : ℕ) :
    (applyTersoffVisit M box NN NL MN b bp x y z vx vy vz st n1 i1).fz n
      = st.fz n
        + ((if n = n1 then (tersoffNet M box NN NL MN b bp x y z n1 i1).2.2 else 0)
          - (if n = NL (n1 * MN + i1)
              then (tersoffNet M box NN NL MN b bp x y z n1 i1).2.2 else 0)) := by
  unfold applyTersoffVisit
  dsimp only
  exact addAt2_eval st.fz n1 (NL (n1 * MN + i1)) _ hne n

lemma foldl_proj_additive (pj : TState → ℚ) (step : TState → (ℕ × ℕ) → TState)
    (val : (ℕ × ℕ) → ℚ) (vs : List (ℕ × ℕ))
    (hstep : ∀ st, ∀ v ∈ vs, pj (step st v) = pj st + val v) (st0 : TState) :
    pj (vs.foldl step st0) = pj st0 + (vs.map val).sum := by
  induction vs using List.reverseRecOn with
  | nil => simp
  | append_singleton vs v ih =>
    rw [List.foldl_append, List.foldl_cons, List.foldl_nil,
      hstep _ v (by simp), ih (fun st w hw => hstep st w (by simp [hw])),
      List.map_append, List.sum_append]
    simp
    ring

lemma mem_tersoffVisits {N : ℕ} {NN NL : ℕ → ℕ} {MN : ℕ} {v : ℕ × ℕ} :
    v ∈ tersoffVisits N NN NL MN ↔
      v.1 < N ∧ v.2 < NN v.1 ∧ v.1 < NL (v.1 * MN + v.2) := by
  unfold tersoffVisits
  simp only [List.mem_flatMap, List.mem_filterMap, List.mem_range]
  constructor
  · rintro ⟨n1, hn1, i1, hi1, hif⟩
    by_cases h : n1 < NL (n1 * MN + i1)
    · rw [if_pos h] at hif
      have hv := Option.some.inj hif
      rw [← hv]
      exact ⟨hn1, hi1, h⟩
    · rw [if_neg h] at hif
      exact Option.noConfusion hif
  · rintro ⟨h1, h2, h3⟩
    exact ⟨v.1, h1, v.2, h2, by rw [if_pos h3]⟩

lemma tersoffVisits_nodup (N : ℕ) (NN NL : ℕ → ℕ) (MN : ℕ) :
    (tersoffVisits N NN NL MN).Nodup := by
  unfold tersoffVisits
  rw [List.nodup_flatMap]
  constructor
  · intro n1 _
    refine List.Nodup.filterMap ?_ (List.nodup_range _)
    intro a a2 p hp1 hp2
    rw [Option.mem_def] at hp1 hp2
    by_cases h1 : n1 < NL (n1 * MN + a)
    · rw [if_pos h1] at hp1
      by_cases h2 : n1 < NL (n1 * MN + a2)
      · rw [if_pos h2] at hp2
        have e1 := Option.some.inj hp1
        have e2 := Option.some.inj hp2
        have := congrArg Prod.snd (e1.trans e2.symm)
        simpa using this
      · rw [if_neg h2] at hp2
        exact Option.noConfusion hp2
    · rw [if_neg h1] at hp1
      exact Option.noConfusion hp1
  · refine (List.pairwise_lt_range N).imp ?_
    intro a c hac p hp1 hp2
    rw [List.mem_filterMap] at hp1 hp2
    obtain ⟨i1, _, hif1⟩ := hp1
    obtain ⟨i2, _, hif2⟩ := hp2
    by_cases h1 : a < NL (a * MN + i1)
    · rw [if_pos h1] at hif1
      by_cases h2 : c < NL (c * MN + i2)
      · rw [if_pos h2] at hif2
        have e1 := Option.some.inj hif1
        have e2 := Option.some.inj hif2
        have := congrArg Prod.fst (e1.trans e2.symm)
        simp at this
        omega
      · rw [if_neg h2] at hif2
        exact Option.noConfusion hif2
    · rw [if_neg h1] at hif1
      exact Option.noConfusion hif1

lemma mem_slotList {NN NL : ℕ → ℕ} {MN a c : ℕ} :
    c ∈ slotList NN NL MN a ↔ ∃ k, k < NN a ∧ NL (a * MN + k) = c := by
  unfold slotList
  simp only [List.mem_map, List.mem_range]

lemma slotList_inj {NN NL : ℕ → ℕ} {MN a : ℕ}
    (hnd : (slotList NN NL MN a).Nodup) {k k2 : ℕ}
    (hk : k < NN a) (hk2 : k2 < NN a)
    (he : NL (a * MN + k) = NL (a * MN + k2)) : k = k2 := by
  unfold slotList at hnd
  exact (List.nodup_map_iff_inj_on (List.nodup_range _)).mp hnd
    k (List.mem_range.mpr hk) k2 (List.mem_range.mpr hk2) he

/-- The once-per-pair contract of one `find_force_tersoff` call: the
processed (atom, partner) pairs are exactly the unordered neighbor pairs
`n1 < n2` of the relation, with no pair processed twice; `prop[0]`
accumulates half of `p12 + p21` once per pair; and each force component
of each atom is its zeroed initial value plus, summed over the processed
pairs, `+fx12` when the atom is the pair's `n1` and `-fx12` when it is
the pair's `n2` — the single application of Newton's third law per pair. -/
def tersoffOnceSpec (M : MathFns) (box : ℕ → ℚ) (N : ℕ) (NN NL : ℕ → ℕ)
    (MN : ℕ) (b bp x y z vx vy vz fx0 fy0 fz0 prop0 : ℕ → ℚ) : Prop :=
  ((tersoffVisits N NN NL MN).map (fun v => (v.1, NL (v.1 * MN + v.2)))).Nodup ∧
  (∀ a c : ℕ,
    (a, c) ∈ (tersoffVisits N NN NL MN).map (fun v => (v.1, NL (v.1 * MN + v.2)))
      ↔ a < N ∧ a < c ∧ c ∈ slotList NN NL MN a ∧ a ∈ slotList NN NL MN c) ∧
  (find_force_tersoff M box N NN NL MN b bp x y z vx vy vz
      fx0 fy0 fz0 prop0).prop 0
    = ((tersoffVisits N NN NL MN).map (fun v =>
        (tersoffP12 M box NN NL MN b bp x y z v.1 v.2
          + tersoffP21 M box NN NL MN b bp x y z v.1 v.2) * 0.5)).sum ∧
  (∀ n, (find_force_tersoff M box N NN NL MN b bp x y z vx vy vz
      fx0 fy0 fz0 prop0).fx n
    = (if n < N then 0 else fx0 n)
      + ((tersoffVisits N NN NL MN).map (fun v =>
          (if n = v.1 then (tersoffNet M box NN NL MN b bp x y z v.1 v.2).1 else 0)
          - (if n = NL (v.1 * MN + v.2)
              then (tersoffNet M box NN NL MN b bp x y z v.1 v.2).1 else 0))).sum) ∧
  (∀ n, (find_force_tersoff M box N NN NL MN b bp x y z vx vy vz
      fx0 fy0 fz0 prop0).fy n
    = (if n < N then 0 else fy0 n)
      + ((tersoffVisits N NN NL MN).map (fun v =>
          (if n = v.1 then (tersoffNet M box NN NL MN b bp x y z v.1 v.2).2.1 else 0)
          - (if n = NL (v.1 * MN + v.2)
              then (tersoffNet M box NN NL MN b bp x y z v.1 v.2).2.1 else 0))).sum) ∧
  (∀ n, (find_force_tersoff M box N NN NL MN b bp x y z vx vy vz
      fx0 fy0 fz0 prop0).fz n
    = (if n < N then 0 else fz0 n)
      + ((tersoffVisits N NN NL MN).map (fun v =>
          (if n = v.1 then (tersoffNet M box NN NL MN b bp x y z v.1 v.2).2.2 else 0)
          - (if n = NL (v.1 * MN + v.2)
              then (tersoffNet M box NN NL MN b bp x y z v.1 v.2).2.2 else 0))).sum)

/-- Claim C4: given a symmetric, duplicate-free, self-free, in-range
neighbor list, one call of `find_force_tersoff` visits every unordered
neighbor pair `(n1, n2)`, `n1 < n2`, exactly once; it adds the net pair
force `fx12 = f12 - f21` (componentwise) to atom `n1` and subtracts it
from atom `n2` as the single application of Newton's third law for the
pair; and it accumulates into `prop[0]` half the sum of `p12 + p21` over
all pairs. -/
theorem c4_find_force_tersoff_once_per_pair (M : MathFns) (box : ℕ → ℚ)
    (N : ℕ) (NN NL : ℕ → ℕ) (MN : ℕ)
    (b bp x y z vx vy vz fx0 fy0 fz0 prop0 : ℕ → ℚ)
    (Hnoself : ∀ a, a < N → ∀ i1, i1 < NN a → NL (a * MN + i1) ≠ a)
    (Hnodup : ∀ a, a < N → (slotList NN NL MN a).Nodup)
    (Hrange : ∀ a, a < N → ∀ c, c ∈ slotList NN NL MN a → c < N)
    (Hsym : ∀ a, a < N → ∀ c, c < N →
      (c ∈ slotList NN NL MN a ↔ a ∈ slotList NN NL MN c)) :
    tersoffOnceSpec M box N NN NL MN b bp x y z vx vy vz fx0 fy0 fz0 prop0 := by
  have hfold := find_force_tersoff_eq_visits M box N NN NL MN b bp x y z vx vy vz
    fx0 fy0 fz0 prop0 Hnoself
  refine ⟨?_, ?_, ?_, ?_, ?_, ?_⟩
  · refine List.Nodup.map_on ?_ (tersoffVisits_nodup N NN NL MN)
    intro v hv w hw he
    obtain ⟨hv1, hv2, hv3⟩ := mem_tersoffVisits.mp hv
    obtain ⟨hw1, hw2, hw3⟩ := mem_tersoffVisits.mp hw
    rw [Prod.mk.injEq] at he
    obtain ⟨hfst, hsnd⟩ := he
    rw [← hfst] at hsnd hw2
    have := slotList_inj (Hnodup v.1 hv1) hv2 hw2 hsnd
    exact Prod.ext hfst this
  · intro a c
    simp only [List.mem_map]
    constructor
    · rintro ⟨v, hv, he⟩
      obtain ⟨hv1, hv2, hv3⟩ := mem_tersoffVisits.mp hv
      have ha : v.1 = a := congrArg Prod.fst he
      have hc : NL (v.1 * MN + v.2) = c := congrArg Prod.snd he
      subst ha
      have hmem : c ∈ slotList NN NL MN v.1 := mem_slotList.mpr ⟨v.2, hv2, hc⟩
      have hcN : c < N := Hrange v.1 hv1 c hmem
      refine ⟨hv1, by omega, hmem, ?_⟩
      exact (Hsym v.1 hv1 c hcN).mp hmem
    · rintro ⟨haN, hac, hmem, hmem2⟩
      obtain ⟨k, hk, hkc⟩ := mem_slotList.mp hmem
      refine ⟨(a, k), mem_tersoffVisits.mpr ⟨haN, hk, by dsimp only; omega⟩, ?_⟩
      simp [hkc]
  · rw [hfold]
    rw [foldl_proj_additive (fun st => st.prop 0)
      (fun st v => applyTersoffVisit M box NN NL MN b bp x y z vx vy vz st v.1 v.2)
      (fun v => (tersoffP12 M box NN NL MN b bp x y z v.1 v.2
        + tersoffP21 M box NN NL MN b bp x y z v.1 v.2) * 0.5)
      (tersoffVisits N NN NL MN)
      (fun st v _ => applyTersoffVisit_prop0 M box NN NL MN b bp x y z vx vy vz
        st v.1 v.2)]
    norm_num
  · intro n
    rw [hfold]
    rw [foldl_proj_additive (fun st => st.fx n)
      (fun st v => applyTersoffVisit M box NN NL MN b bp x y z vx vy vz st v.1 v.2)
      (fun v =>
        (if n = v.1 then (tersoffNet M box NN NL MN b bp x y z v.1 v.2).1 else 0)
        - (if n = NL (v.1 * MN + v.2)
            then (tersoffNet M box NN NL MN b bp x y z v.1 v.2).1 else 0))
      (tersoffVisits N NN NL MN)
      (fun st v hv => applyTersoffVisit_fx M box NN NL MN b bp x y z vx vy vz
        st v.1 v.2 (by
          obtain ⟨h1, h2, h3⟩ := mem_tersoffVisits.mp hv
          omega) n)]
  · intro n
    rw [hfold]
    rw [foldl_proj_additive (fun st => st.fy n)
      (fun st v => applyTersoffVisit M box NN NL MN b bp x y z vx vy vz st v.1 v.2)
      (fun v =>
        (if n = v.1 then (tersoffNet M box NN NL MN b bp x y z v.1 v.2).2.1 else 0)
        - (if n = NL (v.1 * MN + v.2)
            then (tersoffNet M box NN NL MN b bp x y z v.1 v.2).2.1 else 0))
      (tersoffVisits N NN NL MN)
      (fun st v hv => applyTersoffVisit_fy M box NN NL MN b bp x y z vx vy vz
        st v.1 v.2 (by
          obtain ⟨h1, h2, h3⟩ := mem_tersoffVisits.mp hv
          omega) n)]
  · intro n
    rw [hfold]
    rw [foldl_proj_additive (fun st => st.fz n)
      (fun st v => applyTersoffVisit M box NN NL MN b bp x y z vx vy vz st v.1 v.2)
      (fun v =>
        (if n = v.1 then (tersoffNet M box NN NL MN b bp x y z v.1 v.2).2.2 else 0)
        - (if n = NL (v.1 * MN + v.2)
            then (tersoffNet M box NN NL MN b bp x y z v.1 v.2).2.2 else 0))
      (tersoffVisits N NN NL MN)
      (fun st v hv => applyTersoffVisit_fz M box NN NL MN b bp x y z vx vy vz
        st v.1 v.2 (by
          obtain ⟨h1, h2, h3⟩ := mem_tersoffVisits.mp hv
          omega) n)]

/-- The identity interpretation of the math-library calls (used only to
instantiate structural theorems at concrete inputs). -/
def idMath : MathFns :=
  { sqrtQ := fun q => q
    expQ := fun q => q
    cosQ := fun q => q
    sinQ := fun q => q
    powQ := fun a _ => a }

/-- Two-atom neighbor counts for the witness configuration. -/
def tinyNN : ℕ → ℕ := fun a => if a < 2 then 1 else 0

/-- Two-atom symmetric flat neighbor list (stride 4) for the witness. -/
def tinyNL : ℕ → ℕ := fun k => if k = 0 then 1 else 0

/-- Witness for C4: the once-per-pair contract holds on a concrete
two-atom symmetric duplicate-free neighbor list. -/
theorem c4_find_force_tersoff_once_per_pair_witness :
    tersoffOnceSpec idMath (boxCube 50) 2 tinyNN tinyNL 4
      (fun _ => 0) (fun _ => 0) (fun _ => 0) (fun _ => 0) (fun _ => 0)
      (fun _ => 0) (fun _ => 0) (fun _ => 0) (fun _ => 0) (fun _ => 0)
      (fun _ => 0) (fun _ => 0) :=
  c4_find_force_tersoff_once_per_pair idMath (boxCube 50) 2 tinyNN tinyNL 4
    (fun _ => 0) (fun _ => 0) (fun _ => 0) (fun _ => 0) (fun _ => 0)
    (fun _ => 0) (fun _ => 0) (fun _ => 0) (fun _ => 0) (fun _ => 0)
    (fun _ => 0) (fun _ => 0)
    (by decide) (by decide) (by decide) (by decide)

lemma countFold_eq (ci : ℕ → ℤ) (l : List ℕ) (cnt0 : ℤ → ℕ) (q : ℤ) :
    (l.foldl (fun cnt n => fun p => if p = ci n then cnt p + 1 else cnt p) cnt0) q
      = cnt0 q + (l.filter (fun n => decide (ci n = q))).length := by
  induction l generalizing cnt0 with
  | nil => simp
  | cons n t ih =>
    rw [List.foldl_cons, ih]
    by_cases h : ci n = q
    · rw [List.filter_cons_of_pos (by simpa using h), List.length_cons]
      rw [if_pos h.symm]
      omega
    · rw [List.filter_cons_of_neg (by simpa using h)]
      rw [if_neg (fun he => h he.symm)]

lemma cellCounts_eq (ci : ℕ → ℤ) (N : ℕ) (q : ℤ) :
    cellCounts ci N q
      = ((List.range N).filter (fun n => decide (ci n = q))).length := by
  unfold cellCounts
  rw [countFold_eq]
  omega

lemma csum_succ (cnt : ℤ → ℕ) (q : ℕ) :
    csum cnt (q + 1) = csum cnt q + cnt q := rfl

lemma csum_le_csum (cnt : ℤ → ℕ) {p q : ℕ} (h : p < q) :
    csum cnt p + cnt p ≤ csum cnt q := by
  induction q with
  | zero => omega
  | succ q ih =>
    rw [csum_succ]
    rcases Nat.lt_or_ge p q with h2 | h2
    · have := ih h2
      omega
    · have hpq : p = q := by omega
      subst hpq
      omega

lemma filter_length_prefix_le (ci : ℕ → ℤ) (q : ℤ) {p N : ℕ} (h : p ≤ N) :
    ((List.range p).filter (fun n => decide (ci n = q))).length
      ≤ ((List.range N).filter (fun n => decide (ci n = q))).length := by
  have hdec : List.range N = List.range p ++ (List.range (N - p)).map (p + ·) := by
    rw [← List.range_add]
    congr 1
    omega
  rw [hdec, List.filter_append, List.length_append]
  omega

lemma filter_length_prefix_lt (ci : ℕ → ℤ) {p N : ℕ} (h : p < N) :
    ((List.range p).filter (fun n => decide (ci n = ci p))).length
      < ((List.range N).filter (fun n => decide (ci n = ci p))).length := by
  have hdec : List.range N = List.range (p + 1) ++ (List.range (N - (p + 1))).map ((p + 1) + ·) := by
    rw [← List.range_add]
    congr 1
    omega
  have h1 : ((List.range (p + 1)).filter (fun n => decide (ci n = ci p))).length
      = ((List.range p).filter (fun n => decide (ci n = ci p))).length + 1 := by
    rw [List.range_succ, List.filter_append, List.length_append]
    simp
  rw [hdec, List.filter_append, List.length_append, h1]
  omega

/-- The scatter pass stopped after the first `p` atoms. -/
def scatterPrefix (cellIdx : ℕ → ℤ) (sums : ℤ → ℕ) (p : ℕ) :
    (ℕ → ℕ) × (ℤ → ℕ) :=
  (List.range p).foldl
    (fun acc n =>
      (fun m => if m = sums (cellIdx n) + acc.2 (cellIdx n) then n else acc.1 m,
       fun q => if q = cellIdx n then acc.2 q + 1 else acc.2 q))
    (fun _ => 0, fun _ => 0)

lemma scatterFill_eq_prefix (ci : ℕ → ℤ) (sums : ℤ → ℕ) (N : ℕ) :
    scatterFill ci sums N = scatterPrefix ci sums N := rfl

lemma scatterPrefix_succ (ci : ℕ → ℤ) (sums : ℤ → ℕ) (p : ℕ) :
    scatterPrefix ci sums (p + 1)
      = (fun m => if m = sums (ci p) + (scatterPrefix ci sums p).2 (ci p)
            then p else (scatterPrefix ci sums p).1 m,
         fun q => if q = ci p then (scatterPrefix ci sums p).2 q + 1
            else (scatterPrefix ci sums p).2 q) := by
  unfold scatterPrefix
  rw [List.range_succ, List.foldl_append, List.foldl_cons, List.foldl_nil]

lemma scatterPrefix_invariant (ci : ℕ → ℤ) (sums : ℤ → ℕ) (N : ℕ) (cnt : ℤ → ℕ)
    (hcnt : ∀ q, cnt q = ((List.range N).filter (fun n => decide (ci n = q))).length)
    (hsum : ∀ q q' : ℤ, 0 ≤ q → 0 ≤ q' → q < q' → sums q + cnt q ≤ sums q')
    (hpos : ∀ n, n < N → 0 ≤ ci n) :
    ∀ p, p ≤ N →
    (∀ q : ℤ, (scatterPrefix ci sums p).2 q
        = ((List.range p).filter (fun n => decide (ci n = q))).length) ∧
    (∀ q : ℤ, 0 ≤ q →
      (List.range ((scatterPrefix ci sums p).2 q)).map
          (fun m => (scatterPrefix ci sums p).1 (sums q + m))
        = (List.range p).filter (fun n => decide (ci n = q))) := by
  intro p
  induction p with
  | zero =>
    intro _
    constructor
    · intro q
      simp [scatterPrefix]
    · intro q _
      simp [scatterPrefix]
  | succ p ih =>
    intro hp
    obtain ⟨iha, ihb⟩ := ih (by omega)
    have hqp : 0 ≤ ci p := hpos p (by omega)
    have hKlt : (scatterPrefix ci sums p).2 (ci p) < cnt (ci p) := by
      rw [iha, hcnt]
      exact filter_length_prefix_lt ci (by omega)
    have hKle : ∀ q, (scatterPrefix ci sums p).2 q ≤ cnt q := by
      intro q
      rw [iha, hcnt]
      exact filter_length_prefix_le ci q (by omega)
    rw [scatterPrefix_succ]
    dsimp only
    constructor
    · intro q
      by_cases hq : q = ci p
      · subst hq
        rw [if_pos rfl, iha, List.range_succ, List.filter_append, List.length_append]
        simp
      · rw [if_neg hq, iha, List.range_succ, List.filter_append, List.length_append]
        have : ¬ (ci p = q) := fun he => hq he.symm
        simp [this]
    · intro q hq0
      by_cases hq : q = ci p
      · subst hq
        rw [if_pos rfl]
        rw [List.range_succ, List.map_append, List.range_succ, List.filter_append]
        have hlast : [p].filter (fun n => decide (ci n = ci p)) = [p] := by simp
        rw [hlast]
        congr 1
        · rw [← ihb (ci p) hq0]
          apply List.map_congr_left
          intro m hm
          rw [List.mem_range] at hm
          rw [if_neg (by omega)]
        · simp
      · rw [if_neg hq]
        rw [List.range_succ, List.filter_append]
        have hlast : [p].filter (fun n => decide (ci n = q)) = [] := by
          simp
          exact fun he => hq he.symm
        rw [hlast, List.append_nil, ← ihb q hq0]
        apply List.map_congr_left
        intro m hm
        rw [List.mem_range, iha] at hm
        have hmle : m < cnt q := by
          have := hKle q
          rw [iha] at this
          omega
        rcases lt_trichotomy q (ci p) with hlt | heq | hgt
        · have hs := hsum q (ci p) hq0 hqp hlt
          rw [if_neg (by omega)]
        · exact absurd heq hq
        · have hs := hsum (ci p) q hqp hq0 hgt
          rw [if_neg (by omega)]

/-- Counting-sort correctness: after the scatter pass of `findNeighborON1`,
the re-count equals the first-pass count, and the segment of `cellContents`
belonging to cell `q` lists exactly the atoms of cell `q`, in index order. -/
lemma scatterOf_spec (S : ℚ → ℚ) (σ : Atom)
    (hpos : ∀ n, n < σ.number → 0 ≤ cellIdxOf S σ n) :
    (∀ q, (scatterOf S σ).2 q = cntOf S σ q) ∧
    (∀ q : ℤ, 0 ≤ q →
      (List.range ((scatterOf S σ).2 q)).map
          (fun m => (scatterOf S σ).1 (sumsOf S σ q + m))
        = (List.range σ.number).filter (fun n => decide (cellIdxOf S σ n = q))) := by
  have hmain := scatterPrefix_invariant (cellIdxOf S σ) (sumsOf S σ) σ.number (cntOf S σ)
    (fun q => by rw [cntOf]; exact cellCounts_eq _ _ q)
    (fun q q' hq hq' hlt => by
      unfold sumsOf
      have h1 : q.toNat < q'.toNat := by omega
      have h2 := csum_le_csum (cntOf S σ) h1
      have h3 : ((q.toNat : ℤ)) = q := Int.toNat_of_nonneg hq
      rw [h3] at h2
      exact h2)
    hpos σ.number (le_refl _)
  have heq : scatterOf S σ = scatterPrefix (cellIdxOf S σ) (sumsOf S σ) σ.number := rfl
  constructor
  · intro q
    rw [heq, hmain.1 q, cntOf, cellCounts_eq]
  · intro q hq
    rw [heq]
    exact hmain.2 q hq

lemma wrapCell_eval (v n : ℤ) :
    wrapCell v n = if v < 0 then v + n else if v ≥ n then v - n else v := by
  unfold wrapCell
  dsimp only
  split_ifs <;> omega

lemma wrapCell_mem (f n : ℤ) (h1 : -1 ≤ f) (h2 : f ≤ n) (h3 : 1 ≤ n) :
    0 ≤ wrapCell f n ∧ wrapCell f n < n := by
  rw [wrapCell_eval]
  split_ifs <;> omega

lemma wrap_inj {n c o o' : ℤ} (hn : 3 ≤ n) (hc0 : 0 ≤ c) (hcn : c < n)
    (ho : o = -1 ∨ o = 0 ∨ o = 1) (ho' : o' = -1 ∨ o' = 0 ∨ o' = 1)
    (he : wrapCell (c + o) n = wrapCell (c + o') n) : o = o' := by
  rw [wrapCell_eval, wrapCell_eval] at he
  rcases ho with h | h | h <;> rcases ho' with h' | h' | h' <;>
    subst h <;> subst h' <;> split_ifs at he <;> omega

lemma wrap_step {n c1 c2 : ℤ} (hn : 3 ≤ n) (h1 : 0 ≤ c1) (h2 : c1 < n)
    (h3 : 0 ≤ c2) (h4 : c2 < n)
    (hD : (c2 - c1 = -1 ∨ c2 - c1 = 0 ∨ c2 - c1 = 1) ∨
          c2 - c1 = n - 1 ∨ c2 - c1 = -(n-1)) :
    ∃ o : ℤ, (o = -1 ∨ o = 0 ∨ o = 1) ∧ wrapCell (c1 + o) n = c2 := by
  rcases hD with (h|h|h)|h|h
  · exact ⟨-1, Or.inl rfl, by rw [wrapCell_eval]; split_ifs <;> omega⟩
  · exact ⟨0, Or.inr (Or.inl rfl), by rw [wrapCell_eval]; split_ifs <;> omega⟩
  · exact ⟨1, Or.inr (Or.inr rfl), by rw [wrapCell_eval]; split_ifs <;> omega⟩
  · exact ⟨-1, Or.inl rfl, by rw [wrapCell_eval]; split_ifs <;> omega⟩
  · exact ⟨1, Or.inr (Or.inr rfl), by rw [wrapCell_eval]; split_ifs <;> omega⟩

lemma split_digit {n a b K : ℤ} (hn : 0 < n) (ha : 0 ≤ a) (han : a < n)
    (hb : 0 ≤ b) (hbn : b < n) (hk : a - b = n * K) : a = b ∧ K = 0 := by
  have h1 : |a - b| < n := abs_lt.mpr ⟨by omega, by omega⟩
  rw [hk, abs_mul, abs_of_pos hn] at h1
  have h2 : |K| < 1 := by
    by_contra hc
    push_neg at hc
    nlinarith
  rw [abs_lt] at h2
  constructor
  · have : K = 0 := by omega
    rw [this, mul_zero] at hk
    omega
  · omega

lemma comp_inj {n0 n1 a0 a1 a2 b0 b1 b2 : ℤ}
    (hn0 : 0 < n0) (hn1 : 0 < n1)
    (ha0 : 0 ≤ a0) (ha0n : a0 < n0) (ha1 : 0 ≤ a1) (ha1n : a1 < n1)
    (hb0 : 0 ≤ b0) (hb0n : b0 < n0) (hb1 : 0 ≤ b1) (hb1n : b1 < n1)
    (he : a0 + n0 * (a1 + n1 * a2) = b0 + n0 * (b1 + n1 * b2)) :
    a0 = b0 ∧ a1 = b1 ∧ a2 = b2 := by
  have hK1 : a0 - b0 = n0 * ((b1 + n1 * b2) - (a1 + n1 * a2)) := by
    linear_combination he
  obtain ⟨he0, hK0⟩ := split_digit hn0 ha0 ha0n hb0 hb0n hK1
  have hK2 : a1 - b1 = n1 * (b2 - a2) := by linear_combination (-1 : ℤ) * hK0
  obtain ⟨he1, hK21⟩ := split_digit hn1 ha1 ha1n hb1 hb1n hK2
  exact ⟨he0, he1, by omega⟩

lemma axis_adjacent {u1 u2 r : ℚ} {n : ℤ} (hn : 3 ≤ n)
    (hr1 : (n : ℚ) ≤ r) (hr2 : r < (n : ℚ) + 1)
    (h1 : 0 ≤ u1) (h2 : u1 < r) (h3 : 0 ≤ u2) (h4 : u2 < r)
    {m : ℤ} (hm : m = -1 ∨ m = 0 ∨ m = 1)
    (hd : |u2 - u1 + (m : ℚ) * r| < 1) :
    ∃ o : ℤ, (o = -1 ∨ o = 0 ∨ o = 1) ∧
      wrapCell (wrapCell ⌊u1⌋ n + o) n = wrapCell ⌊u2⌋ n := by
  have hfl1 : ((⌊u1⌋ : ℤ) : ℚ) ≤ u1 := Int.floor_le u1
  have hfg1 : u1 < ((⌊u1⌋ : ℤ) : ℚ) + 1 := Int.lt_floor_add_one u1
  have hfl2 : ((⌊u2⌋ : ℤ) : ℚ) ≤ u2 := Int.floor_le u2
  have hfg2 : u2 < ((⌊u2⌋ : ℤ) : ℚ) + 1 := Int.lt_floor_add_one u2
  have hq1 : (0 : ℤ) ≤ ⌊u1⌋ := Int.floor_nonneg.mpr h1
  have hq2 : (0 : ℤ) ≤ ⌊u2⌋ := Int.floor_nonneg.mpr h3
  have hb1 : ⌊u1⌋ ≤ n := by
    have hc : ((⌊u1⌋ : ℤ) : ℚ) < ((n + 1 : ℤ) : ℚ) := by push_cast; linarith
    have : ⌊u1⌋ < n + 1 := by exact_mod_cast hc
    omega
  have hb2 : ⌊u2⌋ ≤ n := by
    have hc : ((⌊u2⌋ : ℤ) : ℚ) < ((n + 1 : ℤ) : ℚ) := by push_cast; linarith
    have : ⌊u2⌋ < n + 1 := by exact_mod_cast hc
    omega
  have hw1 := wrapCell_mem ⌊u1⌋ n (by omega) hb1 (by omega)
  have hw2 := wrapCell_mem ⌊u2⌋ n (by omega) hb2 (by omega)
  have hcc1 : wrapCell ⌊u1⌋ n = ⌊u1⌋ ∨ (⌊u1⌋ = n ∧ wrapCell ⌊u1⌋ n = 0) := by
    rw [wrapCell_eval]
    split_ifs <;> omega
  have hcc2 : wrapCell ⌊u2⌋ n = ⌊u2⌋ ∨ (⌊u2⌋ = n ∧ wrapCell ⌊u2⌋ n = 0) := by
    rw [wrapCell_eval]
    split_ifs <;> omega
  rw [abs_lt] at hd
  rcases hm with hm | hm | hm <;> subst hm
  · -- m = -1: u2 is near the far face, u1 near the origin
    have hu1 : u1 < 1 := by push_cast at hd; linarith
    have hu2 : (n : ℚ) - 1 < u2 := by push_cast at hd; linarith
    have hA : ⌊u1⌋ = 0 := by
      have hc : ((⌊u1⌋ : ℤ) : ℚ) < ((1 : ℤ) : ℚ) := by push_cast; linarith
      have : ⌊u1⌋ < 1 := by exact_mod_cast hc
      omega
    have hB : n - 1 ≤ ⌊u2⌋ := by
      have hc : ((n - 2 : ℤ) : ℚ) < ((⌊u2⌋ : ℤ) : ℚ) := by push_cast; linarith
      have : n - 2 < ⌊u2⌋ := by exact_mod_cast hc
      omega
    refine wrap_step hn hw1.1 hw1.2 hw2.1 hw2.2 ?_
    rcases hcc1 with hc1 | hc1 <;> rcases hcc2 with hc2 | hc2 <;> omega
  · -- m = 0: the floors differ by at most one
    have hA : ⌊u2⌋ < ⌊u1⌋ + 2 := by
      have hc : ((⌊u2⌋ : ℤ) : ℚ) < ((⌊u1⌋ + 2 : ℤ) : ℚ) := by push_cast at hd ⊢; linarith
      exact_mod_cast hc
    have hB : ⌊u1⌋ < ⌊u2⌋ + 2 := by
      have hc : ((⌊u1⌋ : ℤ) : ℚ) < ((⌊u2⌋ + 2 : ℤ) : ℚ) := by push_cast at hd ⊢; linarith
      exact_mod_cast hc
    refine wrap_step hn hw1.1 hw1.2 hw2.1 hw2.2 ?_
    rcases hcc1 with hc1 | hc1 <;> rcases hcc2 with hc2 | hc2 <;> omega
  · -- m = 1: u1 near the far face, u2 near the origin
    have hu2 : u2 < 1 := by push_cast at hd; linarith
    have hu1 : (n : ℚ) - 1 < u1 := by push_cast at hd; linarith
    have hA : ⌊u2⌋ = 0 := by
      have hc : ((⌊u2⌋ : ℤ) : ℚ) < ((1 : ℤ) : ℚ) := by push_cast; linarith
      have : ⌊u2⌋ < 1 := by exact_mod_cast hc
      omega
    have hB : n - 1 ≤ ⌊u1⌋ := by
      have hc : ((n - 2 : ℤ) : ℚ) < ((⌊u1⌋ : ℤ) : ℚ) := by push_cast; linarith
      have : n - 2 < ⌊u1⌋ := by exact_mod_cast hc
      omega
    refine wrap_step hn hw1.1 hw1.2 hw2.1 hw2.2 ?_
    rcases hcc1 with hc1 | hc1 <;> rcases hcc2 with hc2 | hc2 <;> omega

lemma cross_sq_bound {c1 c2 c3 v1 v2 v3 A det frac : ℚ}
    (hApos : 0 < A) (hA2 : A * A = c1*c1 + c2*c2 + c3*c3)
    (hfrac : frac * det = c1*v1 + c2*v2 + c3*v3) :
    (frac * (|det| / A)) * (frac * (|det| / A)) ≤ v1*v1 + v2*v2 + v3*v3 := by
  have hcs : (c1*v1+c2*v2+c3*v3)*(c1*v1+c2*v2+c3*v3)
      ≤ (c1*c1+c2*c2+c3*c3) * (v1*v1+v2*v2+v3*v3) := by
    nlinarith [sq_nonneg (c1*v2 - c2*v1), sq_nonneg (c1*v3 - c3*v1),
      sq_nonneg (c2*v3 - c3*v2)]
  have habs : |det| * |det| = det * det := abs_mul_abs_self det
  have hA2' : (0:ℚ) < A * A := mul_pos hApos hApos
  calc (frac * (|det| / A)) * (frac * (|det| / A))
      = (frac * frac) * ((|det| / A) * (|det| / A)) := by ring
    _ = (frac * frac) * ((det * det) / (A * A)) := by rw [div_mul_div_comm, habs]
    _ = ((frac * det) * (frac * det)) / (A * A) := by ring
    _ = ((c1*v1+c2*v2+c3*v3) * (c1*v1+c2*v2+c3*v3)) / (A * A) := by rw [hfrac]
    _ ≤ ((c1*c1+c2*c2+c3*c3) * (v1*v1+v2*v2+v3*v3)) / (A * A) := by gcongr
    _ = (A * A) * (v1*v1+v2*v2+v3*v3) / (A * A) := by rw [hA2]
    _ = v1*v1+v2*v2+v3*v3 := by field_simp

lemma count_flatMap {α β : Type} [DecidableEq β] (l : List α) (f : α → List β)
    (x : β) :
    (l.flatMap f).count x = (l.map (fun a => (f a).count x)).sum := by
  induction l with
  | nil => rfl
  | cons a t ih =>
    rw [List.flatMap_cons, List.count_append, List.map_cons, List.sum_cons, ih]

lemma count_filter_eq {α : Type} [DecidableEq α] (p : α → Bool) (l : List α)
    (x : α) :
    (l.filter p).count x = if p x then l.count x else 0 := by
  induction l with
  | nil => simp
  | cons a t ih =>
    by_cases hpa : p a
    · rw [List.filter_cons_of_pos hpa]
      by_cases hax : a = x
      · subst hax
        rw [List.count_cons_self, List.count_cons_self, ih, if_pos hpa, if_pos hpa]
      · rw [List.count_cons_of_ne (fun he => hax he.symm),
          List.count_cons_of_ne (fun he => hax he.symm), ih]
    · rw [List.filter_cons_of_neg hpa, ih]
      by_cases hax : a = x
      · subst hax
        rw [if_neg hpa, if_neg hpa]
      · rw [List.count_cons_of_ne (fun he => hax he.symm)]

lemma sum_map_zero {α : Type} (l : List α) (g : α → ℕ)
    (h : ∀ a ∈ l, g a = 0) : (l.map g).sum = 0 := by
  induction l with
  | nil => rfl
  | cons a t ih =>
    rw [List.map_cons, List.sum_cons, h a (List.mem_cons_self a t),
      ih (fun c hc => h c (List.mem_cons_of_mem _ hc))]

lemma sum_map_single {α : Type} [DecidableEq α] (l : List α) (g : α → ℕ)
    (a : α) (v : ℕ) (ha : a ∈ l) (hnd : l.Nodup)
    (h : ∀ b ∈ l, g b = if b = a then v else 0) : (l.map g).sum = v := by
  induction l with
  | nil => cases ha
  | cons b t ih =>
    rw [List.map_cons, List.sum_cons]
    rcases List.mem_cons.mp ha with hba | hat
    · subst hba
      rw [h _ (List.mem_cons_self _ _), if_pos rfl]
      have hnot : a ∉ t := (List.nodup_cons.mp hnd).1
      have hz : (t.map g).sum = 0 := sum_map_zero t g (fun c hc => by
        have hca : c ≠ a := fun he => hnot (he ▸ hc)
        rw [h c (List.mem_cons_of_mem _ hc), if_neg hca])
      omega
    · have hba : b ≠ a := fun he => (List.nodup_cons.mp hnd).1 (he ▸ hat)
      rw [h b (List.mem_cons_self b t), if_neg hba,
        ih hat (List.nodup_cons.mp hnd).2
          (fun c hc => h c (List.mem_cons_of_mem _ hc))]
      omega
